import Mathlib

/-!
Shallow embedding of the Zcash light-client proof-of-work verification core
(crate `zcash_crypto`: `equihash.rs`, `difficulty/target.rs`,
`difficulty/filter.rs`, `difficulty/context.rs`, and `lib.rs`), together with
theorems settling the specification claims about it.

Machine integers are modelled as `Nat` (with explicit `% 2^w` where the Rust
code can wrap) and `Int` for Rust's `i64` (Rust's `/` on `i64` truncates
toward zero, which is `Int.tdiv`).  Byte arrays (`[u8; 32]`, `Vec<u8>`) are
modelled as `List Nat` whose entries are below 256 on the source's domain.
The BLAKE2b primitive comes from the external `blake2b_simd` crate and is
abstracted as a function `gen : Nat → List Nat` mapping the 32-bit group
counter to the finalized digest bytes of the seeded state.
-/

namespace ZcashPow

/-- Value of a byte list read as a little-endian base-256 integer. -/
def leVal : List Nat → Nat
  | [] => 0
  | b :: bs => b + 256 * leVal bs

/-- Value of a byte list read as a big-endian base-256 integer. -/
def beVal : List Nat → Nat
  | [] => 0
  | b :: bs => b * 256 ^ bs.length + beVal bs

/-- All entries of the list are bytes. -/
def IsBytes (l : List Nat) : Prop := ∀ b ∈ l, b < 256

theorem leVal_append (l₁ l₂ : List Nat) :
    leVal (l₁ ++ l₂) = leVal l₁ + 256 ^ l₁.length * leVal l₂ := by
  induction l₁ with
  | nil => simp [leVal]
  | cons b bs ih => simp [leVal, ih, List.length_cons, Nat.pow_succ]; ring

theorem leVal_replicate_zero (n : Nat) : leVal (List.replicate n 0) = 0 := by
  induction n with
  | zero => rfl
  | succ n ih => simp [List.replicate_succ, leVal, ih]

theorem leVal_reverse (l : List Nat) : leVal l.reverse = beVal l := by
  induction l with
  | nil => rfl
  | cons b bs ih =>
    simp only [List.reverse_cons, leVal_append, leVal, beVal, ih, List.length_reverse]
    ring

theorem beVal_reverse (l : List Nat) : beVal l.reverse = leVal l := by
  have h := leVal_reverse l.reverse
  rw [List.reverse_reverse] at h
  exact h.symm

theorem beVal_lt (l : List Nat) (h : IsBytes l) : beVal l < 256 ^ l.length := by
  induction l with
  | nil => simp [beVal]
  | cons b bs ih =>
    have hb : b < 256 := h b (List.mem_cons_self _ _)
    have hbs : beVal bs < 256 ^ bs.length := ih (fun x hx => h x (List.mem_cons_of_mem _ hx))
    have : b * 256 ^ bs.length + beVal bs < (b + 1) * 256 ^ bs.length := by
      have := hbs
      nlinarith [Nat.pos_pow_of_pos bs.length (show 0 < 256 by norm_num)]
    calc b * 256 ^ bs.length + beVal bs < (b + 1) * 256 ^ bs.length := this
      _ ≤ 256 * 256 ^ bs.length := by
          have : b + 1 ≤ 256 := hb
          exact Nat.mul_le_mul_right _ this
      _ = 256 ^ (bs.length + 1) := by ring
      _ = 256 ^ (b :: bs).length := by simp

theorem leVal_lt (l : List Nat) (h : IsBytes l) : leVal l < 256 ^ l.length := by
  have := beVal_lt l.reverse (by intro b hb; exact h b (List.mem_reverse.mp hb))
  rw [beVal_reverse, List.length_reverse] at this
  exact this

/-- Lexicographic comparison of byte lists, first entry most significant. -/
def lexCmp : List Nat → List Nat → Ordering
  | x :: xs, y :: ys =>
    match compare x y with
    | .eq => lexCmp xs ys
    | o => o
  | _, _ => .eq

theorem lexCmp_cons (x y : Nat) (xs ys : List Nat) :
    lexCmp (x :: xs) (y :: ys) =
      match compare x y with
      | .eq => lexCmp xs ys
      | o => o := rfl

theorem lexCmp_eq_compare (xs ys : List Nat) (hlen : xs.length = ys.length)
    (hx : IsBytes xs) (hy : IsBytes ys) :
    lexCmp xs ys = compare (beVal xs) (beVal ys) := by
  induction xs generalizing ys with
  | nil =>
    cases ys with
    | nil => decide
    | cons y ys => simp at hlen
  | cons x xs ih =>
    cases ys with
    | nil => simp at hlen
    | cons y ys =>
      have hlen' : xs.length = ys.length := by simpa using hlen
      have hx' : IsBytes xs := fun b hb => hx b (List.mem_cons_of_mem _ hb)
      have hy' : IsBytes ys := fun b hb => hy b (List.mem_cons_of_mem _ hb)
      have hxb : beVal xs < 256 ^ xs.length := beVal_lt xs hx'
      have hyb : beVal ys < 256 ^ ys.length := beVal_lt ys hy'
      rcases Nat.lt_trichotomy x y with hlt | heq | hgt
      · have hv : beVal (x :: xs) < beVal (y :: ys) := by
          simp only [beVal]
          calc x * 256 ^ xs.length + beVal xs < (x + 1) * 256 ^ xs.length := by nlinarith
            _ ≤ y * 256 ^ xs.length := Nat.mul_le_mul_right _ hlt
            _ = y * 256 ^ ys.length := by rw [hlen']
            _ ≤ y * 256 ^ ys.length + beVal ys := Nat.le_add_right _ _
        rw [lexCmp_cons, Nat.compare_eq_lt.mpr hlt, Nat.compare_eq_lt.mpr hv]
      · subst heq
        have hv : compare (beVal (x :: xs)) (beVal (x :: ys)) = compare (beVal xs) (beVal ys) := by
          simp only [beVal, hlen']
          rcases Nat.lt_trichotomy (beVal xs) (beVal ys) with h | h | h
          · rw [Nat.compare_eq_lt.mpr h, Nat.compare_eq_lt.mpr (by omega)]
          · rw [h]
            rw [Nat.compare_eq_eq.mpr rfl, Nat.compare_eq_eq.mpr rfl]
          · rw [Nat.compare_eq_gt.mpr h, Nat.compare_eq_gt.mpr (by omega)]
        rw [lexCmp_cons, Nat.compare_eq_eq.mpr rfl, hv]
        exact ih ys hlen' hx' hy'
      · have hv : beVal (y :: ys) < beVal (x :: xs) := by
          simp only [beVal]
          calc y * 256 ^ ys.length + beVal ys < (y + 1) * 256 ^ ys.length := by nlinarith
            _ ≤ x * 256 ^ ys.length := Nat.mul_le_mul_right _ hgt
            _ = x * 256 ^ xs.length := by rw [hlen']
            _ ≤ x * 256 ^ xs.length + beVal xs := Nat.le_add_right _ _
        rw [lexCmp_cons, Nat.compare_eq_gt.mpr hgt, Nat.compare_eq_gt.mpr hv]

/-- Comparison of two 256-bit little-endian integers
(`target.rs`, `cmp_target`: byte-wise from the most significant end). -/
def cmp_target (a b : List Nat) : Ordering := lexCmp a.reverse b.reverse

theorem cmp_target_eq_compare (a b : List Nat) (hlen : a.length = b.length)
    (ha : IsBytes a) (hb : IsBytes b) :
    cmp_target a b = compare (leVal a) (leVal b) := by
  unfold cmp_target
  rw [lexCmp_eq_compare a.reverse b.reverse (by simp [hlen])
    (fun x hx => ha x (List.mem_reverse.mp hx))
    (fun x hx => hb x (List.mem_reverse.mp hx)),
    beVal_reverse, beVal_reverse]

/-- Decode compact `nBits` into a 32-byte little-endian target
(`target.rs`, `target_from_nbits`).  `nbits & 0x007fffff` is `nbits % 2^23`,
`nbits >> 24` is `nbits / 2^24`; the byte-granular shift of the whole buffer
is an append/drop of zero bytes. -/
def target_from_nbits (nbits : Nat) : List Nat :=
  let mant := nbits % 2 ^ 23
  let exp := nbits / 2 ^ 24
  if mant = 0 then List.replicate 32 0
  else
    let mant_le := mant % 256 :: mant / 256 % 256 :: mant / 2 ^ 16 % 256 :: List.replicate 29 0
    if exp = 3 then mant_le
    else if 3 < exp then
      let s := exp - 3
      if 32 ≤ s then List.replicate 32 0
      else List.replicate s 0 ++ mant_le.take (32 - s)
    else
      let s := 3 - exp
      if 32 ≤ s then List.replicate 32 0
      else mant_le.drop s ++ List.replicate s 0

theorem target_from_nbits_length (nbits : Nat) : (target_from_nbits nbits).length = 32 := by
  simp only [target_from_nbits]
  split_ifs <;>
    simp [List.length_append, List.length_take, List.length_drop, List.length_replicate] <;>
    omega

theorem target_from_nbits_bytes (nbits : Nat) : IsBytes (target_from_nbits nbits) := by
  have hm : ∀ b ∈ (nbits % 2 ^ 23 % 256 :: nbits % 2 ^ 23 / 256 % 256 ::
      nbits % 2 ^ 23 / 2 ^ 16 % 256 :: List.replicate 29 0), b < 256 := by
    intro b hb
    simp only [List.mem_cons] at hb
    rcases hb with rfl | rfl | rfl | hb
    · exact Nat.mod_lt _ (by norm_num)
    · exact Nat.mod_lt _ (by norm_num)
    · exact Nat.mod_lt _ (by norm_num)
    · have := List.eq_of_mem_replicate hb
      omega
  have hz : ∀ b ∈ List.replicate 32 (0 : Nat), b < 256 := by
    intro b hb
    have := List.eq_of_mem_replicate hb
    omega
  intro b hb
  simp only [target_from_nbits] at hb
  split_ifs at hb
  · exact hz b hb
  · exact hm b hb
  · exact hz b hb
  · rcases List.mem_append.mp hb with h | h
    · have := List.eq_of_mem_replicate h; omega
    · exact hm b (List.mem_of_mem_take h)
  · exact hz b hb
  · rcases List.mem_append.mp hb with h | h
    · exact hm b (List.mem_of_mem_drop h)
    · have := List.eq_of_mem_replicate h; omega

/-- Encode a 32-byte little-endian target into compact `nBits`
(`target.rs`, `target_to_nbits`).  The leading-zero scan is a `takeWhile`
on the reversed (big-endian) bytes; `mant & 0x800000 != 0` is the bit-23
test; the final `(size << 24) | (mant & 0x7fffff)` is an addition because
the masked mantissa lies below bit 23; the u32 left shift in the
`size <= 3` branch wraps modulo `2^32`. -/
def target_to_nbits (target_le : List Nat) : Nat :=
  let bytes_be := target_le.reverse
  let i := (bytes_be.takeWhile (fun b => b == 0)).length
  if i = 32 then 0
  else
    let size := 32 - i
    let mant0 :=
      if size ≤ 3 then
        (bytes_be.getD i 0 * 2 ^ 16 +
          (if i + 1 < 32 then bytes_be.getD (i + 1) 0 * 2 ^ 8 else 0) +
          (if i + 2 < 32 then bytes_be.getD (i + 2) 0 else 0)) * 2 ^ (8 * (3 - size)) % 2 ^ 32
      else
        bytes_be.getD i 0 * 2 ^ 16 + bytes_be.getD (i + 1) 0 * 2 ^ 8 + bytes_be.getD (i + 2) 0
    if mant0 / 2 ^ 23 % 2 = 1 then (size + 1) * 2 ^ 24 + mant0 / 2 ^ 8 % 2 ^ 23
    else size * 2 ^ 24 + mant0 % 2 ^ 23

/-- Difficulty verification errors (`filter.rs`, `DiffError`). -/
inductive DiffError
  | InvalidTarget
  | TargetAbovePowLimit
  | HashAboveTarget
  | InsufficientContext
  | HeightMismatch (expected found : Nat)
  | BitsMismatch (expected found : Nat)
deriving DecidableEq

/-- PoWLimit(mainnet) = 2^243 − 1 as 32 little-endian bytes
(`filter.rs`, `POW_LIMIT_LE`). -/
def POW_LIMIT_LE : List Nat := List.replicate 30 255 ++ [7, 0]

theorem POW_LIMIT_LE_length : POW_LIMIT_LE.length = 32 := by decide

theorem POW_LIMIT_LE_bytes : IsBytes POW_LIMIT_LE := by
  unfold IsBytes POW_LIMIT_LE
  decide

theorem leVal_POW_LIMIT_LE : leVal POW_LIMIT_LE = 2 ^ 243 - 1 := by decide

/-- Difficulty filter `Hash(header) <= ToTarget(nBits)`
(`filter.rs`, `verify_difficulty_filter`). -/
def verify_difficulty_filter (header_hash : List Nat) (n_bits : Nat) :
    Except DiffError Unit :=
  let hash_le := header_hash
  let target_le := target_from_nbits n_bits
  if target_le = List.replicate 32 0 then .error .InvalidTarget
  else if cmp_target target_le POW_LIMIT_LE = .gt then .error .TargetAbovePowLimit
  else if cmp_target hash_le target_le = .gt then .error .HashAboveTarget
  else .ok ()

theorem leVal_eq_zero_eq_replicate (l : List Nat) (h : leVal l = 0) :
    l = List.replicate l.length 0 := by
  induction l with
  | nil => rfl
  | cons b bs ih =>
    simp only [leVal] at h
    have hb : b = 0 := by omega
    have hbs : leVal bs = 0 := by omega
    simp only [List.length_cons, List.replicate_succ]
    rw [hb, ih hbs, List.length_replicate]

theorem target_from_nbits_eq_zero_iff (nbits : Nat) :
    target_from_nbits nbits = List.replicate 32 0 ↔ leVal (target_from_nbits nbits) = 0 := by
  constructor
  · intro h
    rw [h, leVal_replicate_zero]
  · intro h
    have hlen := target_from_nbits_length nbits
    have := leVal_eq_zero_eq_replicate _ h
    rwa [hlen] at this

/-- C2: the difficulty filter checks, in order: all-zero decoded target
(`InvalidTarget`), decoded target above `POW_LIMIT = 2^243 - 1` as a 256-bit
little-endian integer (`TargetAbovePowLimit`), header hash above the target
as a 256-bit little-endian integer (`HashAboveTarget`), otherwise `Ok`;
in particular `nbits = 0` gives `InvalidTarget`, and a hash byte-wise equal
to a valid decoded target gives `Ok`. -/
theorem difficulty_filter_characterization (h : List Nat) (nbits : Nat)
    (hlen : h.length = 32) (hbytes : IsBytes h) :
    (verify_difficulty_filter h nbits =
      if target_from_nbits nbits = List.replicate 32 0 then .error DiffError.InvalidTarget
      else if 2 ^ 243 - 1 < leVal (target_from_nbits nbits) then
        .error DiffError.TargetAbovePowLimit
      else if leVal (target_from_nbits nbits) < leVal h then .error DiffError.HashAboveTarget
      else .ok ())
    ∧ verify_difficulty_filter h 0 = .error DiffError.InvalidTarget
    ∧ (h = target_from_nbits nbits → target_from_nbits nbits ≠ List.replicate 32 0 →
        leVal (target_from_nbits nbits) ≤ 2 ^ 243 - 1 →
        verify_difficulty_filter h nbits = .ok ()) := by
  have htlen := target_from_nbits_length nbits
  have htbytes := target_from_nbits_bytes nbits
  have hcmp1 : cmp_target (target_from_nbits nbits) POW_LIMIT_LE =
      compare (leVal (target_from_nbits nbits)) (leVal POW_LIMIT_LE) :=
    cmp_target_eq_compare _ _ (by rw [htlen, POW_LIMIT_LE_length]) htbytes POW_LIMIT_LE_bytes
  have hcmp2 : cmp_target h (target_from_nbits nbits) =
      compare (leVal h) (leVal (target_from_nbits nbits)) :=
    cmp_target_eq_compare _ _ (by rw [hlen, htlen]) hbytes htbytes
  have hmain : verify_difficulty_filter h nbits =
      if target_from_nbits nbits = List.replicate 32 0 then .error DiffError.InvalidTarget
      else if 2 ^ 243 - 1 < leVal (target_from_nbits nbits) then
        .error DiffError.TargetAbovePowLimit
      else if leVal (target_from_nbits nbits) < leVal h then .error DiffError.HashAboveTarget
      else .ok () := by
    simp only [verify_difficulty_filter]
    rw [hcmp1, leVal_POW_LIMIT_LE, hcmp2]
    by_cases h0 : target_from_nbits nbits = List.replicate 32 0
    · rw [if_pos h0, if_pos h0]
    · rw [if_neg h0, if_neg h0]
      by_cases habove : 2 ^ 243 - 1 < leVal (target_from_nbits nbits)
      · rw [if_pos (Nat.compare_eq_gt.mpr habove), if_pos habove]
      · rw [if_neg (fun hc => habove (Nat.compare_eq_gt.mp hc)), if_neg habove]
        by_cases hh : leVal (target_from_nbits nbits) < leVal h
        · rw [if_pos (Nat.compare_eq_gt.mpr hh), if_pos hh]
        · rw [if_neg (fun hc => hh (Nat.compare_eq_gt.mp hc)), if_neg hh]
  refine ⟨hmain, ?_, ?_⟩
  · simp only [verify_difficulty_filter]
    have h00 : target_from_nbits 0 = List.replicate 32 0 := by decide
    rw [if_pos h00]
  · intro heq hnz hle
    rw [hmain, if_neg hnz, if_neg (by omega), if_neg (by rw [heq]; omega)]

/-- Closed-form instance of the difficulty filter characterization:
hash equal to the decoded target of nBits `0x1f07ffff` passes the filter. -/
theorem difficulty_filter_characterization_witness :
    verify_difficulty_filter (target_from_nbits 0x1f07ffff) 0x1f07ffff = .ok () := by
  have h := difficulty_filter_characterization (target_from_nbits 0x1f07ffff) 0x1f07ffff
    (target_from_nbits_length _) (target_from_nbits_bytes _)
  exact h.2.2 rfl (by decide) (by decide)

theorem takeWhile_zero_replicate_cons (n x : Nat) (l : List Nat) (hx : x ≠ 0) :
    (List.replicate n 0 ++ x :: l).takeWhile (fun b => b == 0) = List.replicate n 0 := by
  induction n with
  | zero =>
    simp only [List.replicate, List.nil_append, List.takeWhile_cons]
    have : (x == 0) = false := by
      simp [hx]
    simp [this]
  | succ n ih =>
    simp only [List.replicate_succ, List.cons_append, List.takeWhile_cons]
    simp [ih]

theorem getD_replicate_append (n j a d : Nat) (l : List Nat) :
    (List.replicate n a ++ l).getD (n + j) d = l.getD j d := by
  induction n with
  | zero => simp
  | succ n ih =>
    simp only [List.replicate_succ, List.cons_append]
    have : n + 1 + j = (n + j) + 1 := by omega
    rw [this, List.getD_cons_succ, ih]

/-- Decoded-target shape for an in-range exponent: `exp - 3` zero bytes,
the three mantissa bytes, then high zero bytes. -/
theorem target_from_nbits_shape (nbits : Nat) (h3 : 3 ≤ nbits / 2 ^ 24)
    (h32 : nbits / 2 ^ 24 ≤ 32) (hm : nbits % 2 ^ 23 ≠ 0) :
    target_from_nbits nbits = List.replicate (nbits / 2 ^ 24 - 3) 0 ++
      nbits % 2 ^ 23 % 256 :: nbits % 2 ^ 23 / 256 % 256 :: nbits % 2 ^ 23 / 2 ^ 16 % 256 ::
      List.replicate (29 - (nbits / 2 ^ 24 - 3)) 0 := by
  simp only [target_from_nbits]
  rw [if_neg hm]
  by_cases he : nbits / 2 ^ 24 = 3
  · rw [if_pos he, he]
    simp
  · rw [if_neg he, if_pos (by omega)]
    rw [if_neg (by omega)]
    have h29 : 32 - (nbits / 2 ^ 24 - 3) = (29 - (nbits / 2 ^ 24 - 3)) + 1 + 1 + 1 := by omega
    rw [h29, List.take_succ_cons, List.take_succ_cons, List.take_succ_cons,
      List.take_replicate]
    have hmin : min (29 - (nbits / 2 ^ 24 - 3)) 29 = 29 - (nbits / 2 ^ 24 - 3) := by omega
    rw [hmin]

/-- C7 counterexample: `nbits = 0x02010000` is canonical in the claim's sense
(mantissa bit 23 clear, leading mantissa byte `0x01` nonzero) yet does not
survive the decode/encode roundtrip. -/
theorem nbits_roundtrip_counterexample :
    (0x02010000 % 2 ^ 24 < 2 ^ 23 ∧ 0x02010000 % 2 ^ 23 / 2 ^ 16 ≠ 0) ∧
    target_to_nbits (target_from_nbits 0x02010000) ≠ 0x02010000 := by decide

/-- C7 (amended): for every `nbits` that is canonically encoded — mantissa
bit 23 clear and leading mantissa byte nonzero — and whose byte exponent
`nbits >> 24` lies between 3 and 32, `target_to_nbits (target_from_nbits
nbits)` equals `nbits`. -/
theorem nbits_roundtrip (nbits : Nat) (hbit : nbits % 2 ^ 24 < 2 ^ 23)
    (hlead : nbits % 2 ^ 23 / 2 ^ 16 ≠ 0) (hlo : 3 ≤ nbits / 2 ^ 24)
    (hhi : nbits / 2 ^ 24 ≤ 32) :
    target_to_nbits (target_from_nbits nbits) = nbits := by
  have hmantlt : nbits % 2 ^ 23 < 2 ^ 23 := Nat.mod_lt _ (by norm_num)
  have hm : nbits % 2 ^ 23 ≠ 0 := by
    intro h
    rw [h] at hlead
    exact hlead (by norm_num)
  have hm2lt : nbits % 2 ^ 23 / 2 ^ 16 < 2 ^ 7 := by omega
  have hm2 : nbits % 2 ^ 23 / 2 ^ 16 % 256 = nbits % 2 ^ 23 / 2 ^ 16 :=
    Nat.mod_eq_of_lt (by omega)
  set s := nbits / 2 ^ 24 - 3 with hs
  have hs29 : s ≤ 29 := by omega
  have hshape := target_from_nbits_shape nbits hlo hhi hm
  have hrev : (target_from_nbits nbits).reverse =
      List.replicate (29 - s) 0 ++ nbits % 2 ^ 23 / 2 ^ 16 % 256 ::
        nbits % 2 ^ 23 / 256 % 256 :: nbits % 2 ^ 23 % 256 :: List.replicate s 0 := by
    rw [hshape, hs]
    simp only [List.reverse_append, List.reverse_cons, List.reverse_replicate]
    simp
  have htake : (((target_from_nbits nbits).reverse).takeWhile (fun b => b == 0)).length
      = 29 - s := by
    rw [hrev, takeWhile_zero_replicate_cons _ _ _ (by rw [hm2]; exact hlead)]
    simp
  have hget0 : ((target_from_nbits nbits).reverse).getD (29 - s) 0 =
      nbits % 2 ^ 23 / 2 ^ 16 % 256 := by
    rw [hrev]
    have := getD_replicate_append (29 - s) 0 0 0
      (nbits % 2 ^ 23 / 2 ^ 16 % 256 :: nbits % 2 ^ 23 / 256 % 256 ::
        nbits % 2 ^ 23 % 256 :: List.replicate s 0)
    simpa using this
  have hget1 : ((target_from_nbits nbits).reverse).getD (29 - s + 1) 0 =
      nbits % 2 ^ 23 / 256 % 256 := by
    rw [hrev]
    have := getD_replicate_append (29 - s) 1 0 0
      (nbits % 2 ^ 23 / 2 ^ 16 % 256 :: nbits % 2 ^ 23 / 256 % 256 ::
        nbits % 2 ^ 23 % 256 :: List.replicate s 0)
    simpa using this
  have hget2 : ((target_from_nbits nbits).reverse).getD (29 - s + 2) 0 =
      nbits % 2 ^ 23 % 256 := by
    rw [hrev]
    have := getD_replicate_append (29 - s) 2 0 0
      (nbits % 2 ^ 23 / 2 ^ 16 % 256 :: nbits % 2 ^ 23 / 256 % 256 ::
        nbits % 2 ^ 23 % 256 :: List.replicate s 0)
    simpa using this
  have hw : nbits % 2 ^ 23 / 2 ^ 16 % 256 * 2 ^ 16 + nbits % 2 ^ 23 / 256 % 256 * 2 ^ 8 +
      nbits % 2 ^ 23 % 256 = nbits % 2 ^ 23 := by
    rw [hm2]
    omega
  have hmant24 : nbits % 2 ^ 24 = nbits % 2 ^ 23 := by
    conv_lhs => rw [show (2 : Nat) ^ 24 = 2 ^ 23 * 2 by norm_num]
    omega
  simp only [target_to_nbits]
  rw [htake]
  rw [if_neg (by omega)]
  by_cases hsz : s = 0
  · have hsize3 : 32 - (29 - s) ≤ 3 := by omega
    rw [if_pos hsize3]
    have h30 : 29 - s + 1 < 32 := by omega
    have h31 : 29 - s + 2 < 32 := by omega
    rw [if_pos h30, if_pos h31, hget0, hget1, hget2]
    have hsz3 : 32 - (29 - s) = 3 := by omega
    rw [hsz3]
    simp only [Nat.sub_self, Nat.mul_zero, Nat.pow_zero, Nat.mul_one]
    rw [hw]
    rw [if_neg (by omega)]
    have he3 : nbits / 2 ^ 24 = 3 := by omega
    omega
  · have hsize3 : ¬ 32 - (29 - s) ≤ 3 := by omega
    rw [if_neg hsize3, hget0, hget1, hget2, hw]
    rw [if_neg (by omega)]
    have hsz32 : 32 - (29 - s) = s + 3 := by omega
    rw [hsz32, hs]
    have hdiv : nbits / 2 ^ 24 - 3 + 3 = nbits / 2 ^ 24 := by omega
    rw [hdiv]
    omega

/-- Closed-form instance of the amended roundtrip at `nbits = 0x1f123456`. -/
theorem nbits_roundtrip_witness :
    target_to_nbits (target_from_nbits 0x1f123456) = 0x1f123456 :=
  nbits_roundtrip 0x1f123456 (by norm_num) (by norm_num) (by norm_num) (by norm_num)

theorem leVal_shape (k m0 m1 m2 j : Nat) :
    leVal (List.replicate k 0 ++ m0 :: m1 :: m2 :: List.replicate j 0) =
      256 ^ k * (m0 + 256 * m1 + 65536 * m2) := by
  rw [leVal_append, leVal_replicate_zero, List.length_replicate]
  simp only [leVal, leVal_replicate_zero]
  ring

/-- Numeric value of the decoded target for an in-range exponent:
`mantissa * 256 ^ (exp - 3)`. -/
theorem leVal_target_from_nbits (nbits : Nat) (h3 : 3 ≤ nbits / 2 ^ 24)
    (h32 : nbits / 2 ^ 24 ≤ 32) (hm : nbits % 2 ^ 23 ≠ 0) :
    leVal (target_from_nbits nbits) = 256 ^ (nbits / 2 ^ 24 - 3) * (nbits % 2 ^ 23) := by
  rw [target_from_nbits_shape nbits h3 h32 hm, leVal_shape]
  have hlt : nbits % 2 ^ 23 < 2 ^ 23 := Nat.mod_lt _ (by norm_num)
  congr 1
  omega

theorem beVal_replicate_zero_append (n : Nat) (l : List Nat) :
    beVal (List.replicate n 0 ++ l) = beVal l := by
  induction n with
  | zero => simp
  | succ n ih =>
    simp only [List.replicate_succ, List.cons_append, beVal]
    simpa using ih

/-- Structure of a target value representable with a small mantissa:
the residue below the significant window is zero and the window is the
mantissa shifted by a byte power. -/
theorem rep_structure (W r κ m e : Nat) (hr : r < 256 ^ κ) (hW : 2 ^ 16 ≤ W)
    (hm : m < 2 ^ 23) (hrep : W * 256 ^ κ + r = m * 256 ^ e) :
    r = 0 ∧ W = m * 256 ^ (e - κ) := by
  have hpowpos : ∀ a : Nat, 0 < (256 : Nat) ^ a := fun a => Nat.pos_pow_of_pos _ (by norm_num)
  have h1 : 256 ^ (κ + 2) ≤ W * 256 ^ κ + r := by
    calc (256 : Nat) ^ (κ + 2) = 2 ^ 16 * 256 ^ κ := by rw [pow_add]; ring
      _ ≤ W * 256 ^ κ := Nat.mul_le_mul_right _ hW
      _ ≤ W * 256 ^ κ + r := Nat.le_add_right _ _
  have h2 : W * 256 ^ κ + r < 256 ^ (e + 3) := by
    rw [hrep]
    calc m * 256 ^ e < 2 ^ 23 * 256 ^ e := mul_lt_mul_of_pos_right hm (hpowpos e)
      _ ≤ 256 ^ 3 * 256 ^ e := Nat.mul_le_mul_right _ (by norm_num)
      _ = 256 ^ (e + 3) := by rw [pow_add]; ring
  have hke : κ ≤ e := by
    have hlt := lt_of_le_of_lt h1 h2
    have := (Nat.pow_lt_pow_iff_right (by norm_num : 1 < 256)).mp hlt
    omega
  have hsplitm : m * 256 ^ e = m * 256 ^ (e - κ) * 256 ^ κ := by
    rw [mul_assoc, ← pow_add]
    congr 2
    omega
  have hr0 : r = 0 := by
    have hmod : (W * 256 ^ κ + r) % 256 ^ κ = r := by
      rw [Nat.add_comm, Nat.add_mul_mod_self_right, Nat.mod_eq_of_lt hr]
    have hdvd : 256 ^ κ ∣ m * 256 ^ e := ⟨m * 256 ^ (e - κ), by rw [hsplitm]; ring⟩
    have hzero : m * 256 ^ e % 256 ^ κ = 0 := Nat.mod_eq_zero_of_dvd hdvd
    rw [hrep, hzero] at hmod
    exact hmod.symm
  refine ⟨hr0, ?_⟩
  have heq := hrep
  rw [hr0, Nat.add_zero, hsplitm] at heq
  exact Nat.eq_of_mul_eq_mul_right (hpowpos κ) heq

theorem takeWhile_zero_replicate_append (n : Nat) (l : List Nat) :
    (List.replicate n 0 ++ l).takeWhile (fun b => b == 0) =
      List.replicate n 0 ++ l.takeWhile (fun b => b == 0) := by
  induction n with
  | zero => simp
  | succ n ih => simp [List.replicate_succ, List.takeWhile_cons, ih]

/-- C8 counterexample: the 32-byte little-endian target of value 300 is
within the PoW limit, yet the encode/decode roundtrip yields 11264 > 300,
refuting `target_from_nbits (target_to_nbits t) ≤ t` (and 300 is
representable in 23 mantissa bits, so the equality case fails too). -/
theorem target_roundtrip_counterexample :
    ((44 :: 1 :: List.replicate 30 0 : List Nat).length = 32 ∧
      (∀ b ∈ (44 :: 1 :: List.replicate 30 0 : List Nat), b < 256) ∧
      leVal (44 :: 1 :: List.replicate 30 0) ≤ 2 ^ 243 - 1) ∧
    ¬ leVal (target_from_nbits (target_to_nbits (44 :: 1 :: List.replicate 30 0))) ≤
      leVal (44 :: 1 :: List.replicate 30 0) := by decide

/-- C8 (amended): for every 32-byte little-endian target `t` with
`2^16 ≤ t ≤ POW_LIMIT = 2^243 - 1` (that is, with at least three significant
bytes), `target_from_nbits (target_to_nbits t)` is at most `t` as a 256-bit
integer, and equality holds exactly when `t = m * 256^e` for some mantissa
`m < 2^23`.  Targets below `2^16` must be excluded: the counterexample at
value 300 shows the roundtrip can grow such targets. -/
theorem target_roundtrip_le (t : List Nat) (hlen : t.length = 32) (hbytes : IsBytes t)
    (hlow : 2 ^ 16 ≤ leVal t) (hlim : leVal t ≤ 2 ^ 243 - 1) :
    leVal (target_from_nbits (target_to_nbits t)) ≤ leVal t ∧
    (leVal (target_from_nbits (target_to_nbits t)) = leVal t ↔
      ∃ m e, m < 2 ^ 23 ∧ leVal t = m * 256 ^ e) := by
  have hbytesrev : IsBytes t.reverse := fun b hb => hbytes b (List.mem_reverse.mp hb)
  have hlenrev : t.reverse.length = 32 := by rw [List.length_reverse, hlen]
  obtain ⟨z, hzdef⟩ : ∃ z, (t.reverse.takeWhile (fun b => b == 0)).length = z := ⟨_, rfl⟩
  have htw : t.reverse.takeWhile (fun b => b == 0) = List.replicate z 0 := by
    rw [← hzdef]
    apply List.eq_replicate_of_mem
    intro b hb
    have := List.mem_takeWhile_imp hb
    simpa using this
  have hsplit : t.reverse = List.replicate z 0 ++ t.reverse.dropWhile (fun b => b == 0) := by
    conv_lhs => rw [← List.takeWhile_append_dropWhile (fun b => b == 0) t.reverse]
    rw [htw]
  have hvz : leVal t = beVal (t.reverse.dropWhile (fun b => b == 0)) := by
    rw [← beVal_reverse t]
    conv_lhs => rw [hsplit]
    rw [beVal_replicate_zero_append]
  have hzlen : z + (t.reverse.dropWhile (fun b => b == 0)).length = 32 := by
    have hl := congrArg List.length hsplit
    rw [hlenrev, List.length_append, List.length_replicate] at hl
    omega
  have hdropbytes : IsBytes (t.reverse.dropWhile (fun b => b == 0)) := by
    intro b hb
    apply hbytesrev
    rw [hsplit]
    exact List.mem_append_right _ hb
  have hsize_up : beVal (t.reverse.dropWhile (fun b => b == 0)) <
      256 ^ (t.reverse.dropWhile (fun b => b == 0)).length := beVal_lt _ hdropbytes
  have hlen3 : 3 ≤ (t.reverse.dropWhile (fun b => b == 0)).length := by
    by_contra hc
    push_neg at hc
    have h1 : (256 : Nat) ^ (t.reverse.dropWhile (fun b => b == 0)).length ≤ 65536 := by
      calc (256 : Nat) ^ (t.reverse.dropWhile (fun b => b == 0)).length ≤ 256 ^ 2 :=
          Nat.pow_le_pow_right (by norm_num) (by omega)
        _ = 65536 := by norm_num
    omega
  obtain ⟨s0, s1, s2, s', hS⟩ :
      ∃ s0 s1 s2 s', t.reverse.dropWhile (fun b => b == 0) = s0 :: s1 :: s2 :: s' := by
    rcases hl : t.reverse.dropWhile (fun b => b == 0) with _ | ⟨a, _ | ⟨b, _ | ⟨c, rest⟩⟩⟩
    · rw [hl] at hlen3; simp at hlen3
    · rw [hl] at hlen3; simp at hlen3
    · rw [hl] at hlen3; simp at hlen3
    · exact ⟨a, b, c, rest, rfl⟩
  have hs0ne : s0 ≠ 0 := by
    intro h0
    have h1 := hzdef
    rw [hsplit, hS, takeWhile_zero_replicate_append, h0] at h1
    simp [List.takeWhile_cons, List.length_append] at h1
  have hs0lt : s0 < 256 := hdropbytes s0 (by rw [hS]; simp)
  have hs1lt : s1 < 256 := hdropbytes s1 (by rw [hS]; simp)
  have hs2lt : s2 < 256 := hdropbytes s2 (by rw [hS]; simp)
  have hsbytes : IsBytes s' := by
    intro b hb
    exact hdropbytes b (by rw [hS]; simp [hb])
  have hr : beVal s' < 256 ^ s'.length := beVal_lt _ hsbytes
  have hzk : z + 3 + s'.length = 32 := by
    rw [hS] at hzlen
    simp only [List.length_cons] at hzlen
    omega
  set W := s0 * 2 ^ 16 + s1 * 2 ^ 8 + s2 with hWdef
  have hWlow : 2 ^ 16 ≤ W := by
    have : 1 ≤ s0 := by omega
    rw [hWdef]
    nlinarith
  have hWhi : W < 2 ^ 24 := by rw [hWdef]; omega
  have hv : leVal t = W * 256 ^ s'.length + beVal s' := by
    rw [hvz, hS]
    simp only [beVal, List.length_cons, hWdef]
    ring
  have hk31 : s'.length ≤ 28 := by
    by_contra hc
    push_neg at hc
    have h29 : s'.length = 29 := by omega
    have hbig : 2 ^ 248 ≤ leVal t := by
      rw [hv, h29]
      calc (2 : Nat) ^ 248 = 2 ^ 16 * 256 ^ 29 := by norm_num
        _ ≤ W * 256 ^ 29 := Nat.mul_le_mul_right _ hWlow
        _ ≤ W * 256 ^ 29 + beVal s' := Nat.le_add_right _ _
    omega
  have hgetD0 : t.reverse.getD z 0 = s0 := by
    rw [hsplit, hS]
    have := getD_replicate_append z 0 0 0 (s0 :: s1 :: s2 :: s')
    simpa using this
  have hgetD1 : t.reverse.getD (z + 1) 0 = s1 := by
    rw [hsplit, hS]
    have := getD_replicate_append z 1 0 0 (s0 :: s1 :: s2 :: s')
    simpa using this
  have hgetD2 : t.reverse.getD (z + 2) 0 = s2 := by
    rw [hsplit, hS]
    have := getD_replicate_append z 2 0 0 (s0 :: s1 :: s2 :: s')
    simpa using this
  have henc : target_to_nbits t =
      if 2 ^ 23 ≤ W then (32 - z + 1) * 2 ^ 24 + W / 2 ^ 8 % 2 ^ 23
      else (32 - z) * 2 ^ 24 + W % 2 ^ 23 := by
    simp only [target_to_nbits]
    rw [hzdef, if_neg (show ¬ z = 32 by omega)]
    by_cases hk : s'.length = 0
    · rw [if_pos (show 32 - z ≤ 3 by omega)]
      rw [if_pos (show z + 1 < 32 by omega), if_pos (show z + 2 < 32 by omega)]
      rw [hgetD0, hgetD1, hgetD2]
      have hns : 8 * (3 - (32 - z)) = 0 := by omega
      rw [hns]
      simp only [pow_zero, Nat.mul_one]
      have hmod32 : (s0 * 2 ^ 16 + s1 * 2 ^ 8 + s2) % 2 ^ 32 = W :=
        Nat.mod_eq_of_lt (by omega)
      rw [hmod32]
      by_cases hW23 : 2 ^ 23 ≤ W
      · rw [if_pos (show W / 2 ^ 23 % 2 = 1 by omega), if_pos hW23]
      · rw [if_neg (show ¬ W / 2 ^ 23 % 2 = 1 by omega), if_neg hW23]
    · rw [if_neg (show ¬ 32 - z ≤ 3 by omega)]
      rw [hgetD0, hgetD1, hgetD2]
      rw [show s0 * 2 ^ 16 + s1 * 2 ^ 8 + s2 = W from rfl]
      by_cases hW23 : 2 ^ 23 ≤ W
      · rw [if_pos (show W / 2 ^ 23 % 2 = 1 by omega), if_pos hW23]
      · rw [if_neg (show ¬ W / 2 ^ 23 % 2 = 1 by omega), if_neg hW23]
  by_cases hW23 : 2 ^ 23 ≤ W
  · -- mantissa window has bit 23 set: encoder shifts down a byte
    obtain ⟨Q, D, hQD, hDlt, hQval⟩ : ∃ Q D, W = 256 * Q + D ∧ D < 256 ∧ Q = W / 256 :=
      ⟨W / 256, W % 256, (Nat.div_add_mod W 256).symm, Nat.mod_lt _ (by norm_num), rfl⟩
    have hz1 : 1 ≤ z := by
      by_contra h0
      push_neg at h0
      have hk29 : s'.length = 29 := by omega
      have hbig : 2 ^ 255 ≤ leVal t := by
        rw [hv, hk29]
        calc (2 : Nat) ^ 255 = 2 ^ 23 * 256 ^ 29 := by norm_num
          _ ≤ W * 256 ^ 29 := Nat.mul_le_mul_right _ hW23
          _ ≤ W * 256 ^ 29 + beVal s' := Nat.le_add_right _ _
      omega
    have hfrom : leVal (target_from_nbits (target_to_nbits t)) =
        256 ^ (s'.length + 1) * Q := by
      rw [henc, if_pos hW23]
      have hWm : W / 2 ^ 8 % 2 ^ 23 = Q := by rw [hQval]; omega
      rw [hWm]
      have hd1 : ((32 - z + 1) * 2 ^ 24 + Q) / 2 ^ 24 = 32 - z + 1 := by omega
      have hd2 : ((32 - z + 1) * 2 ^ 24 + Q) % 2 ^ 23 = Q := by omega
      rw [leVal_target_from_nbits _ (by omega) (by omega) (by omega)]
      rw [hd1, hd2]
      have hexp : 32 - z + 1 - 3 = s'.length + 1 := by omega
      rw [hexp]
    have hvB : leVal t = 256 ^ (s'.length + 1) * Q + (D * 256 ^ s'.length + beVal s') := by
      rw [hv, hQD]
      ring
    constructor
    · rw [hfrom, hvB]
      exact Nat.le_add_right _ _
    · rw [hfrom, hvB]
      constructor
      · intro heq
        have hzero : D * 256 ^ s'.length + beVal s' = 0 := (self_eq_add_right.mp heq)
        have hD0 : D = 0 := by
          have hm0 : D * 256 ^ s'.length = 0 := by omega
          have hp : 0 < (256 : Nat) ^ s'.length := Nat.pos_pow_of_pos _ (by norm_num)
          rcases Nat.mul_eq_zero.mp hm0 with h | h
          · exact h
          · omega
        refine ⟨Q, s'.length + 1, by omega, ?_⟩
        rw [hzero, Nat.add_zero, Nat.mul_comm]
      · rintro ⟨m, e, hm, hveq⟩
        have hrep := rep_structure W (beVal s') s'.length m e hr hWlow hm
          (by rw [← hv, hvB]; exact hveq)
        obtain ⟨hr0, hWm⟩ := hrep
        have he1 : 1 ≤ e - s'.length := by
          by_contra h0
          push_neg at h0
          have h00 : e - s'.length = 0 := by omega
          rw [h00, pow_zero, Nat.mul_one] at hWm
          omega
        have hD0 : D = 0 := by
          have h256 : 256 ∣ W := by
            rw [hWm]
            have : 256 ^ (e - s'.length) = 256 ^ (e - s'.length - 1) * 256 := by
              rw [← pow_succ]
              congr 1
              omega
            rw [this, ← Nat.mul_assoc]
            exact Dvd.intro_left _ rfl
          have := Nat.mod_eq_zero_of_dvd h256
          omega
        rw [hD0, hr0]
        simp
  · -- mantissa window directly below bit 23
    have hfrom : leVal (target_from_nbits (target_to_nbits t)) =
        256 ^ s'.length * W := by
      rw [henc, if_neg hW23]
      have hWm : W % 2 ^ 23 = W := Nat.mod_eq_of_lt (by omega)
      rw [hWm]
      have hd1 : ((32 - z) * 2 ^ 24 + W) / 2 ^ 24 = 32 - z := by omega
      have hd2 : ((32 - z) * 2 ^ 24 + W) % 2 ^ 23 = W := by omega
      rw [leVal_target_from_nbits _ (by omega) (by omega) (by omega)]
      rw [hd1, hd2]
      have hexp : 32 - z - 3 = s'.length := by omega
      rw [hexp]
    have hvA : leVal t = 256 ^ s'.length * W + beVal s' := by
      rw [hv]
      ring
    constructor
    · rw [hfrom, hvA]
      exact Nat.le_add_right _ _
    · rw [hfrom, hvA]
      constructor
      · intro heq
        have hr0 : beVal s' = 0 := self_eq_add_right.mp heq
        refine ⟨W, s'.length, by omega, ?_⟩
        rw [hr0, Nat.add_zero, Nat.mul_comm]
      · rintro ⟨m, e, hm, hveq⟩
        have hrep := rep_structure W (beVal s') s'.length m e hr hWlow hm
          (by rw [← hv, hvA]; exact hveq)
        rw [hrep.1]
        simp

/-- Closed-form instance of the amended lossy-down roundtrip at the target
of value `2^16` (exactly representable, so the roundtrip is exact). -/
theorem target_roundtrip_le_witness :
    leVal (target_from_nbits (target_to_nbits (0 :: 0 :: 1 :: List.replicate 29 0))) ≤
      leVal (0 :: 0 :: 1 :: List.replicate 29 0) := by
  have h := target_roundtrip_le (0 :: 0 :: 1 :: List.replicate 29 0)
    (by decide) (by unfold IsBytes; decide) (by decide) (by decide)
  exact h.1

/-- Sliding window of header data for contextual difficulty
(`context.rs`, `DifficultyContext`). -/
structure DifficultyContext where
  tip_height : Nat
  times : List Nat
  bits : List Nat
deriving DecidableEq

/-- Empty context at the given tip height (`DifficultyContext::new`). -/
def DifficultyContext.new (tip_height : Nat) : DifficultyContext :=
  ⟨tip_height, [], []⟩

def POW_AVERAGING_WINDOW : Nat := 17

def POW_MEDIAN_BLOCK_SPAN : Nat := 11

def POW_MAX_ADJUST_DOWN_NUM : Int := 32

def POW_MAX_ADJUST_UP_NUM : Int := 16

def POW_ADJUST_DEN : Int := 100

def POW_DAMPING_FACTOR : Int := 4

def POW_TARGET_SPACING : Int := 75

def AVERAGING_WINDOW_TIMESPAN : Int := (POW_AVERAGING_WINDOW : Int) * POW_TARGET_SPACING

def MIN_ACTUAL_TIMESPAN : Int :=
  AVERAGING_WINDOW_TIMESPAN * (POW_ADJUST_DEN - POW_MAX_ADJUST_UP_NUM) / POW_ADJUST_DEN

def MAX_ACTUAL_TIMESPAN : Int :=
  AVERAGING_WINDOW_TIMESPAN * (POW_ADJUST_DEN + POW_MAX_ADJUST_DOWN_NUM) / POW_ADJUST_DEN

/-- Append a newly accepted header to the context (`push_header`):
append, then drop the oldest entry when the bound is exceeded. -/
def DifficultyContext.push_header (ctx : DifficultyContext)
    (height n_time n_bits : Nat) : DifficultyContext :=
  let times := ctx.times ++ [n_time]
  let times :=
    if times.length > POW_MEDIAN_BLOCK_SPAN + POW_AVERAGING_WINDOW then times.drop 1 else times
  let bits := ctx.bits ++ [n_bits]
  let bits := if bits.length > POW_AVERAGING_WINDOW then bits.drop 1 else bits
  ⟨height, times, bits⟩

/-- Median of 11 values: ascending sort, middle element (`median_11`). -/
def median_11 (values : List Nat) : Nat :=
  (values.insertionSort (· ≤ ·)).getD (POW_MEDIAN_BLOCK_SPAN / 2) 0

/-- Signed timespan between the medians of the two 11-entry windows
(`actual_timespan`), with `AVERAGING_WINDOW_TIMESPAN` substituted
when the medians coincide. -/
def actual_timespan (ctx : DifficultyContext) : Int :=
  let len := ctx.times.length
  if len < POW_MEDIAN_BLOCK_SPAN + POW_AVERAGING_WINDOW then 0
  else
    let recent_median := median_11 (ctx.times.drop (len - POW_MEDIAN_BLOCK_SPAN))
    let past_start := len - POW_MEDIAN_BLOCK_SPAN - POW_AVERAGING_WINDOW
    let past_median := median_11 ((ctx.times.drop past_start).take POW_MEDIAN_BLOCK_SPAN)
    let span : Int := (recent_median : Int) - (past_median : Int)
    if span = 0 then AVERAGING_WINDOW_TIMESPAN else span

/-- Damped timespan (`actual_timespan_damped`); Rust `i64` division
truncates toward zero, which is `Int.tdiv`. -/
def actual_timespan_damped (ctx : DifficultyContext) : Int :=
  AVERAGING_WINDOW_TIMESPAN +
    (actual_timespan ctx - AVERAGING_WINDOW_TIMESPAN).tdiv POW_DAMPING_FACTOR

/-- Clamp the damped timespan into the adjustment bounds (`clamp_timespan`). -/
def clamp_timespan (value : Int) : Int :=
  if value < MIN_ACTUAL_TIMESPAN then MIN_ACTUAL_TIMESPAN
  else if value > MAX_ACTUAL_TIMESPAN then MAX_ACTUAL_TIMESPAN
  else value

/-- C3: on a context holding exactly 28 timestamps, the clamped damped
timespan equals `clip(1275 + (A - 1275) tdiv 4, 1071, 1683)` where `A` is
the median of the last 11 timestamps minus the median of the first 11
(median of 11 = the 6th after ascending sort), computed as a signed
difference, with `A` replaced by 1275 when the medians are equal. -/
theorem clamped_damped_timespan (ctx : DifficultyContext) (hlen : ctx.times.length = 28) :
    clamp_timespan (actual_timespan_damped ctx) =
      max 1071 (min 1683 (1275 +
        ((if ((ctx.times.drop 17).insertionSort (· ≤ ·)).getD 5 0 =
            ((ctx.times.take 11).insertionSort (· ≤ ·)).getD 5 0 then (1275 : Int)
          else ((((ctx.times.drop 17).insertionSort (· ≤ ·)).getD 5 0 : Nat) : Int) -
            ((((ctx.times.take 11).insertionSort (· ≤ ·)).getD 5 0 : Nat) : Int)) -
          1275).tdiv 4)) := by
  have hats : actual_timespan ctx =
      (if ((ctx.times.drop 17).insertionSort (· ≤ ·)).getD 5 0 =
          ((ctx.times.take 11).insertionSort (· ≤ ·)).getD 5 0 then (1275 : Int)
        else ((((ctx.times.drop 17).insertionSort (· ≤ ·)).getD 5 0 : Nat) : Int) -
          ((((ctx.times.take 11).insertionSort (· ≤ ·)).getD 5 0 : Nat) : Int)) := by
    simp only [actual_timespan, median_11, POW_MEDIAN_BLOCK_SPAN, POW_AVERAGING_WINDOW, hlen]
    rw [if_neg (by norm_num)]
    rw [List.drop_zero]
    rw [show AVERAGING_WINDOW_TIMESPAN = (1275 : Int) by decide]
    by_cases heq : ((ctx.times.drop 17).insertionSort (· ≤ ·)).getD 5 0 =
        ((ctx.times.take 11).insertionSort (· ≤ ·)).getD 5 0
    · rw [if_pos (by rw [heq]; ring), if_pos heq]
    · rw [if_neg ?hne, if_neg heq]
      case hne =>
        intro hc
        apply heq
        have h2 := sub_eq_zero.mp hc
        exact_mod_cast h2
  rw [actual_timespan_damped, hats]
  have hAVG : AVERAGING_WINDOW_TIMESPAN = 1275 := by decide
  have hMIN : MIN_ACTUAL_TIMESPAN = 1071 := by decide
  have hMAX : MAX_ACTUAL_TIMESPAN = 1683 := by decide
  have hDAMP : POW_DAMPING_FACTOR = 4 := by decide
  rw [clamp_timespan, hAVG, hMIN, hMAX, hDAMP]
  set x : Int := 1275 +
      ((if ((ctx.times.drop 17).insertionSort (· ≤ ·)).getD 5 0 =
          ((ctx.times.take 11).insertionSort (· ≤ ·)).getD 5 0 then (1275 : Int)
        else ((((ctx.times.drop 17).insertionSort (· ≤ ·)).getD 5 0 : Nat) : Int) -
          ((((ctx.times.take 11).insertionSort (· ≤ ·)).getD 5 0 : Nat) : Int)) -
        1275).tdiv 4 with hx
  by_cases h1 : x < 1071
  · rw [if_pos h1]
    omega
  · rw [if_neg h1]
    by_cases h2 : x > 1683
    · rw [if_pos h2]
      omega
    · rw [if_neg h2]
      omega

/-- Closed-form instance of the clamped damped timespan computation on a
concrete 28-timestamp context. -/
theorem clamped_damped_timespan_witness :
    clamp_timespan (actual_timespan_damped ⟨27, List.range 28, []⟩) =
      max 1071 (min 1683 (1275 +
        ((if (((List.range 28).drop 17).insertionSort (· ≤ ·)).getD 5 0 =
            (((List.range 28).take 11).insertionSort (· ≤ ·)).getD 5 0 then (1275 : Int)
          else (((((List.range 28).drop 17).insertionSort (· ≤ ·)).getD 5 0 : Nat) : Int) -
            (((((List.range 28).take 11).insertionSort (· ≤ ·)).getD 5 0 : Nat) : Int)) -
          1275).tdiv 4)) :=
  clamped_damped_timespan ⟨27, List.range 28, []⟩ (by decide)

/-- Fold a sequence of `push_header` calls over a context. -/
def applyPushes (ctx : DifficultyContext) (ops : List (Nat × Nat × Nat)) : DifficultyContext :=
  ops.foldl (fun c op => c.push_header op.1 op.2.1 op.2.2) ctx

theorem push_header_times_eq (ctx : DifficultyContext) (h tm b : Nat) :
    (ctx.push_header h tm b).times =
      if ctx.times.length + 1 > 28 then (ctx.times ++ [tm]).drop 1 else ctx.times ++ [tm] := by
  simp only [DifficultyContext.push_header, POW_MEDIAN_BLOCK_SPAN, POW_AVERAGING_WINDOW,
    List.length_append, List.length_cons, List.length_nil]

theorem push_header_bits_eq (ctx : DifficultyContext) (h tm b : Nat) :
    (ctx.push_header h tm b).bits =
      if ctx.bits.length + 1 > 17 then (ctx.bits ++ [b]).drop 1 else ctx.bits ++ [b] := by
  simp only [DifficultyContext.push_header, POW_MEDIAN_BLOCK_SPAN, POW_AVERAGING_WINDOW,
    List.length_append, List.length_cons, List.length_nil]

theorem applyPushes_bounded (ops : List (Nat × Nat × Nat)) (ctx : DifficultyContext)
    (ht : ctx.times.length ≤ 28) (hb : ctx.bits.length ≤ 17) :
    (applyPushes ctx ops).times.length ≤ 28 ∧ (applyPushes ctx ops).bits.length ≤ 17 := by
  induction ops generalizing ctx with
  | nil => exact ⟨ht, hb⟩
  | cons op ops ih =>
    apply ih
    · rw [push_header_times_eq]
      split_ifs with hc <;> simp [List.length_append] <;> omega
    · rw [push_header_bits_eq]
      split_ifs with hc <;> simp [List.length_append] <;> omega

/-- C6: after any sequence of `push_header` calls from an empty context the
times window holds at most 28 entries and the bits window at most 17; each
push appends at the newest end, drops exactly the oldest entry when the
bound would be exceeded, keeps the surviving entries in order, and sets
`tip_height` to the pushed height. -/
theorem push_header_spec :
    (∀ start ops, (applyPushes (DifficultyContext.new start) ops).times.length ≤ 28 ∧
      (applyPushes (DifficultyContext.new start) ops).bits.length ≤ 17) ∧
    (∀ ctx : DifficultyContext, ∀ h tm b,
      (ctx.push_header h tm b).tip_height = h ∧
      (ctx.push_header h tm b).times =
        (if ctx.times.length + 1 > 28 then (ctx.times ++ [tm]).drop 1 else ctx.times ++ [tm]) ∧
      (ctx.push_header h tm b).bits =
        (if ctx.bits.length + 1 > 17 then (ctx.bits ++ [b]).drop 1 else ctx.bits ++ [b])) := by
  constructor
  · intro start ops
    exact applyPushes_bounded ops _ (by simp [DifficultyContext.new]) (by simp [DifficultyContext.new])
  · intro ctx h tm b
    exact ⟨rfl, push_header_times_eq ctx h tm b, push_header_bits_eq ctx h tm b⟩

/-- Schoolbook little-endian addition with a byte carry (`add_target`). -/
def addBytes : List Nat → List Nat → Nat → List Nat
  | a :: as, b :: bs, carry =>
    (a + b + carry) % 256 :: addBytes as bs ((a + b + carry) / 256)
  | _, _, _ => []

/-- 256-bit addition on 32-byte little-endian arrays (`add_target`). -/
def add_target (a b : List Nat) : List Nat := addBytes a b 0

/-- Long division of a big-endian digit list by `rhs`, producing the
quotient bytes (truncated to `u8` like the source's `q as u8`) and the
running remainder.  `div_target_u32` scans the little-endian array from
index 31 down, which is this recursion on the reversed list. -/
def divBytesBE (rhs : Nat) : List Nat → Nat → List Nat × Nat
  | [], rem => ([], rem)
  | x :: xs, rem =>
    let cur := rem * 256 + x
    let rest := divBytesBE rhs xs (cur % rhs)
    (cur / rhs % 256 :: rest.1, rest.2)

/-- 256-bit division by a `u32` (`div_target_u32`). -/
def div_target_u32 (x : List Nat) (rhs : Nat) : List Nat :=
  ((divBytesBE rhs x.reverse 0).1).reverse

/-- Schoolbook little-endian multiplication by `rhs` with carry
(`mul_target_u32`). -/
def mulBytes (rhs : Nat) : List Nat → Nat → List Nat
  | [], _ => []
  | x :: xs, carry => (x * rhs + carry) % 256 :: mulBytes rhs xs ((x * rhs + carry) / 256)

/-- 256-bit multiplication by a `u32` (`mul_target_u32`). -/
def mul_target_u32 (x : List Nat) (rhs : Nat) : List Nat := mulBytes rhs x 0

/-- Minimum of two targets by `cmp_target` (`min_target`). -/
def min_target (a b : List Nat) : List Nat :=
  if cmp_target a b = .gt then b else a

/-- Mean of the last 17 decoded targets (`mean_target`): 256-bit
accumulation then division by 17. -/
def mean_target (ctx : DifficultyContext) : List Nat :=
  let start := ctx.bits.length - POW_AVERAGING_WINDOW
  let acc := (ctx.bits.drop start).foldl
    (fun acc bits => add_target acc (target_from_nbits bits)) (List.replicate 32 0)
  div_target_u32 acc (POW_AVERAGING_WINDOW : Nat)

/-- Next-target computation (`threshold`): clamp the damped timespan,
divide the mean target by `AVERAGING_WINDOW_TIMESPAN`, multiply by the
clamped timespan, and cap at the PoW limit. -/
def threshold (ctx : DifficultyContext) : List Nat :=
  let ats := actual_timespan_damped ctx
  let ats_bounded := (clamp_timespan ats).toNat
  let mean := mean_target ctx
  let scaled := mul_target_u32 (div_target_u32 mean AVERAGING_WINDOW_TIMESPAN.toNat) ats_bounded
  min_target scaled POW_LIMIT_LE

/-- Expected compact difficulty for the next height (`expected_nbits`). -/
def expected_nbits (ctx : DifficultyContext) (header_height : Nat) : Except DiffError Nat :=
  if ctx.times.length < POW_MEDIAN_BLOCK_SPAN + POW_AVERAGING_WINDOW ∨
      ctx.bits.length < POW_AVERAGING_WINDOW then
    .error .InsufficientContext
  else if header_height ≠ ctx.tip_height + 1 then
    .error (.HeightMismatch (ctx.tip_height + 1) header_height)
  else
    .ok (target_to_nbits (threshold ctx))

/-- Contextual difficulty check (`difficulty::context::verify_difficulty`). -/
def verify_difficulty_contextual (ctx : DifficultyContext)
    (header_height header_bits : Nat) : Except DiffError Unit :=
  match expected_nbits ctx header_height with
  | .error e => .error e
  | .ok expected =>
    if header_bits ≠ expected then .error (.BitsMismatch expected header_bits)
    else .ok ()

theorem mod_step (r z m : Nat) (hm : 0 < m) :
    (r + 256 * z) % (256 * m) = r % 256 + 256 * ((r / 256 + z) % m) := by
  have h1 : r + 256 * z = r % 256 + 256 * (r / 256 + z) := by omega
  rw [h1]
  have hu : r % 256 < 256 := Nat.mod_lt _ (by norm_num)
  have hwm : (r / 256 + z) % m < m := Nat.mod_lt _ hm
  rw [Nat.add_mod, Nat.mul_mod_mul_left]
  have hum : r % 256 % (256 * m) = r % 256 := Nat.mod_eq_of_lt (by nlinarith)
  rw [hum]
  exact Nat.mod_eq_of_lt (by omega)

theorem addBytes_length : ∀ (a b : List Nat) (c : Nat), a.length = b.length →
    (addBytes a b c).length = a.length
  | [], [], _, _ => rfl
  | [], _ :: _, _, h => by simp at h
  | _ :: _, [], _, h => by simp at h
  | a :: as, b :: bs, c, h => by
    simp only [addBytes, List.length_cons]
    rw [addBytes_length as bs _ (by simpa using h)]

theorem addBytes_bytes : ∀ (a b : List Nat) (c : Nat), IsBytes (addBytes a b c)
  | [], [], _ => by intro x hx; simp [addBytes] at hx
  | [], _ :: _, _ => by intro x hx; simp [addBytes] at hx
  | _ :: _, [], _ => by intro x hx; simp [addBytes] at hx
  | a :: as, b :: bs, c => by
    intro x hx
    simp only [addBytes, List.mem_cons] at hx
    rcases hx with rfl | hx
    · exact Nat.mod_lt _ (by norm_num)
    · exact addBytes_bytes as bs _ x hx

theorem leVal_addBytes : ∀ (a b : List Nat) (c : Nat), a.length = b.length →
    leVal (addBytes a b c) = (leVal a + leVal b + c) % 256 ^ a.length
  | [], [], c, _ => by simp [addBytes, leVal, Nat.mod_one]
  | [], _ :: _, c, h => by simp at h
  | _ :: _, [], c, h => by simp at h
  | a :: as, b :: bs, c, h => by
    have h' : as.length = bs.length := by simpa using h
    simp only [addBytes, leVal, List.length_cons]
    rw [leVal_addBytes as bs _ h']
    rw [show a + 256 * leVal as + (b + 256 * leVal bs) + c
        = (a + b + c) + 256 * (leVal as + leVal bs) by ring]
    rw [show (256 : Nat) ^ (as.length + 1) = 256 * 256 ^ as.length by ring]
    rw [mod_step _ _ _ (Nat.pos_pow_of_pos _ (by norm_num))]
    ring_nf

theorem leVal_add_target (a b : List Nat) (ha : a.length = 32) (hb : b.length = 32)
    (hlt : leVal a + leVal b < 256 ^ 32) :
    leVal (add_target a b) = leVal a + leVal b := by
  unfold add_target
  rw [leVal_addBytes a b 0 (by omega), ha]
  rw [Nat.add_zero]
  exact Nat.mod_eq_of_lt hlt

theorem leVal_mulBytes : ∀ (xs : List Nat) (r c : Nat),
    leVal (mulBytes r xs c) = (leVal xs * r + c) % 256 ^ xs.length
  | [], r, c => by simp [mulBytes, leVal, Nat.mod_one]
  | x :: xs, r, c => by
    simp only [mulBytes, leVal, List.length_cons]
    rw [leVal_mulBytes xs r _]
    rw [show (x + 256 * leVal xs) * r + c = (x * r + c) + 256 * (leVal xs * r) by ring]
    rw [show (256 : Nat) ^ (xs.length + 1) = 256 * 256 ^ xs.length by ring]
    rw [mod_step _ _ _ (Nat.pos_pow_of_pos _ (by norm_num))]
    ring_nf

theorem mulBytes_length : ∀ (xs : List Nat) (r c : Nat), (mulBytes r xs c).length = xs.length
  | [], _, _ => rfl
  | x :: xs, r, c => by
    simp only [mulBytes, List.length_cons]
    rw [mulBytes_length xs r _]

theorem mulBytes_bytes : ∀ (xs : List Nat) (r c : Nat), IsBytes (mulBytes r xs c)
  | [], _, _ => by intro x hx; simp [mulBytes] at hx
  | x :: xs, r, c => by
    intro y hy
    simp only [mulBytes, List.mem_cons] at hy
    rcases hy with rfl | hy
    · exact Nat.mod_lt _ (by norm_num)
    · exact mulBytes_bytes xs r _ y hy

theorem leVal_mul_target_u32 (x : List Nat) (r : Nat) (hx : x.length = 32)
    (hlt : leVal x * r < 256 ^ 32) :
    leVal (mul_target_u32 x r) = leVal x * r := by
  unfold mul_target_u32
  rw [leVal_mulBytes, hx, Nat.add_zero]
  exact Nat.mod_eq_of_lt hlt

theorem divBytesBE_spec (rhs : Nat) (hr : 0 < rhs) : ∀ (l : List Nat) (rem : Nat),
    IsBytes l → rem < rhs →
    beVal (divBytesBE rhs l rem).1 = (rem * 256 ^ l.length + beVal l) / rhs ∧
    (divBytesBE rhs l rem).1.length = l.length ∧ IsBytes (divBytesBE rhs l rem).1
  | [], rem, _, hrem => by
    refine ⟨?_, rfl, by intro x hx; simp [divBytesBE] at hx⟩
    simp only [divBytesBE, beVal, List.length_nil, pow_zero, Nat.mul_one, Nat.add_zero]
    rw [Nat.div_eq_of_lt hrem]
  | x :: xs, rem, hb, hrem => by
    have hx : x < 256 := hb x (List.mem_cons_self _ _)
    have hb' : IsBytes xs := fun y hy => hb y (List.mem_cons_of_mem _ hy)
    have hrem' : (rem * 256 + x) % rhs < rhs := Nat.mod_lt _ hr
    obtain ⟨ihv, ihl, ihb⟩ := divBytesBE_spec rhs hr xs ((rem * 256 + x) % rhs) hb' hrem'
    have hq : (rem * 256 + x) / rhs < 256 := by
      have hcur : rem * 256 + x < rhs * 256 := by nlinarith
      by_contra hc
      push_neg at hc
      have := Nat.div_mul_le_self (rem * 256 + x) rhs
      have h2 : rhs * 256 ≤ (rem * 256 + x) / rhs * rhs := by
        calc rhs * 256 = 256 * rhs := by ring
          _ ≤ (rem * 256 + x) / rhs * rhs := Nat.mul_le_mul_right _ hc
      omega
    refine ⟨?_, ?_, ?_⟩
    · simp only [divBytesBE, beVal]
      rw [Nat.mod_eq_of_lt hq, ihl, ihv]
      have hdecomp : rem * 256 ^ (x :: xs).length + (x * 256 ^ xs.length + beVal xs) =
          (rem * 256 + x) % rhs * 256 ^ xs.length + beVal xs +
            rhs * ((rem * 256 + x) / rhs * 256 ^ xs.length) := by
        simp only [List.length_cons]
        have hdm := Nat.div_add_mod (rem * 256 + x) rhs
        calc rem * 256 ^ (xs.length + 1) + (x * 256 ^ xs.length + beVal xs)
            = (rem * 256 + x) * 256 ^ xs.length + beVal xs := by ring
          _ = (rhs * ((rem * 256 + x) / rhs) + (rem * 256 + x) % rhs) * 256 ^ xs.length +
              beVal xs := by rw [hdm]
          _ = (rem * 256 + x) % rhs * 256 ^ xs.length + beVal xs +
              rhs * ((rem * 256 + x) / rhs * 256 ^ xs.length) := by ring
      rw [hdecomp, Nat.add_mul_div_left _ _ hr]
      exact Nat.add_comm _ _
    · simp only [divBytesBE, List.length_cons, ihl]
    · intro y hy
      simp only [divBytesBE, List.mem_cons] at hy
      rcases hy with rfl | hy
      · exact Nat.mod_lt _ (by norm_num)
      · exact ihb y hy

theorem div_target_u32_spec (x : List Nat) (rhs : Nat) (hr : 0 < rhs) (hb : IsBytes x) :
    leVal (div_target_u32 x rhs) = leVal x / rhs ∧
    (div_target_u32 x rhs).length = x.length ∧ IsBytes (div_target_u32 x rhs) := by
  have hbrev : IsBytes x.reverse := fun y hy => hb y (List.mem_reverse.mp hy)
  obtain ⟨hv, hl, hbq⟩ := divBytesBE_spec rhs hr x.reverse 0 hbrev hr
  refine ⟨?_, ?_, ?_⟩
  · unfold div_target_u32
    rw [leVal_reverse, hv, beVal_reverse]
    simp
  · unfold div_target_u32
    rw [List.length_reverse, hl, List.length_reverse]
  · intro y hy
    unfold div_target_u32 at hy
    exact hbq y (List.mem_reverse.mp hy)

theorem leVal_min_target (a b : List Nat) (hlen : a.length = b.length)
    (ha : IsBytes a) (hb : IsBytes b) :
    leVal (min_target a b) = min (leVal a) (leVal b) := by
  unfold min_target
  rw [cmp_target_eq_compare a b hlen ha hb]
  by_cases h : leVal b < leVal a
  · rw [if_pos (Nat.compare_eq_gt.mpr h)]
    omega
  · rw [if_neg (fun hc => h (Nat.compare_eq_gt.mp hc))]
    omega

theorem foldl_add_target (l : List Nat) : ∀ acc : List Nat, acc.length = 32 → IsBytes acc →
    leVal acc + (l.map (fun bits => leVal (target_from_nbits bits))).sum < 256 ^ 32 →
    leVal (l.foldl (fun acc bits => add_target acc (target_from_nbits bits)) acc) =
      leVal acc + (l.map (fun bits => leVal (target_from_nbits bits))).sum ∧
    (l.foldl (fun acc bits => add_target acc (target_from_nbits bits)) acc).length = 32 ∧
    IsBytes (l.foldl (fun acc bits => add_target acc (target_from_nbits bits)) acc) := by
  induction l with
  | nil => intro acc hl hby _; exact ⟨by simp, hl, hby⟩
  | cons b bs ih =>
    intro acc hl hby hsum
    simp only [List.foldl_cons, List.map_cons, List.sum_cons] at hsum ⊢
    have hstep : leVal (add_target acc (target_from_nbits b)) =
        leVal acc + leVal (target_from_nbits b) := by
      apply leVal_add_target acc _ hl (target_from_nbits_length b)
      omega
    have hlen' : (add_target acc (target_from_nbits b)).length = 32 := by
      unfold add_target
      rw [addBytes_length _ _ _ (by rw [hl, target_from_nbits_length]), hl]
    have hby' : IsBytes (add_target acc (target_from_nbits b)) := addBytes_bytes _ _ _
    obtain ⟨hv, hle, hbb⟩ := ih (add_target acc (target_from_nbits b)) hlen' hby'
      (by rw [hstep]; omega)
    refine ⟨?_, hle, hbb⟩
    rw [hv, hstep]
    ring

theorem clamp_timespan_range (v : Int) :
    1071 ≤ clamp_timespan v ∧ clamp_timespan v ≤ 1683 := by
  unfold clamp_timespan
  rw [show MIN_ACTUAL_TIMESPAN = (1071 : Int) by decide,
    show MAX_ACTUAL_TIMESPAN = (1683 : Int) by decide]
  split_ifs <;> omega

/-- C4: on a context with 17 nBits whose decoded targets are all within
`POW_LIMIT = 2^243 - 1`, `threshold` computes exactly
`min((sum / 17 / 1275) * clamped, POW_LIMIT)` over genuine natural-number
arithmetic: neither the 17-fold 256-bit addition nor the multiplication by
the clamped timespan (at most 1683) overflows 256 bits, because the
division by `AVG_TIMESPAN = 1275` precedes the multiplication. -/
theorem threshold_exact (ctx : DifficultyContext) (hlen : ctx.bits.length = 17)
    (hbound : ∀ b ∈ ctx.bits, leVal (target_from_nbits b) ≤ 2 ^ 243 - 1) :
    (ctx.bits.map (fun b => leVal (target_from_nbits b))).sum < 2 ^ 256 ∧
    (ctx.bits.map (fun b => leVal (target_from_nbits b))).sum / 17 / 1275 *
      (clamp_timespan (actual_timespan_damped ctx)).toNat < 2 ^ 256 ∧
    leVal (threshold ctx) =
      min ((ctx.bits.map (fun b => leVal (target_from_nbits b))).sum / 17 / 1275 *
        (clamp_timespan (actual_timespan_damped ctx)).toNat) (2 ^ 243 - 1) := by
  have hsumle : (ctx.bits.map (fun b => leVal (target_from_nbits b))).sum ≤
      17 * (2 ^ 243 - 1) := by
    have h := List.sum_le_card_nsmul (ctx.bits.map (fun b => leVal (target_from_nbits b)))
      (2 ^ 243 - 1) ?bnd
    case bnd =>
      intro x hx
      obtain ⟨b, hmemb, rfl⟩ := List.mem_map.mp hx
      exact hbound b hmemb
    rw [List.length_map, hlen] at h
    simpa using h
  have hpow : (256 : Nat) ^ 32 = 2 ^ 256 := by norm_num
  have hsumlt : (ctx.bits.map (fun b => leVal (target_from_nbits b))).sum < 2 ^ 256 := by
    have : 17 * (2 ^ 243 - 1) < 2 ^ 256 := by norm_num
    omega
  -- mean_target computes sum / 17 exactly
  have hmean := foldl_add_target ctx.bits (List.replicate 32 0) (by simp) ?zb ?ssum
  case zb =>
    intro y hy
    have := List.eq_of_mem_replicate hy
    omega
  case ssum =>
    rw [leVal_replicate_zero, hpow]
    omega
  obtain ⟨hmv, hml, hmb⟩ := hmean
  have hstart : ctx.bits.length - POW_AVERAGING_WINDOW = 0 := by
    rw [hlen]; decide
  have hmean_eq : mean_target ctx = div_target_u32
      (ctx.bits.foldl (fun acc bits => add_target acc (target_from_nbits bits))
        (List.replicate 32 0)) 17 := by
    simp only [mean_target, hstart, List.drop_zero]
    rfl
  obtain ⟨hdv, hdl, hdb⟩ := div_target_u32_spec
    (ctx.bits.foldl (fun acc bits => add_target acc (target_from_nbits bits))
      (List.replicate 32 0)) 17 (by norm_num) hmb
  have hmean_val : leVal (mean_target ctx) =
      (ctx.bits.map (fun b => leVal (target_from_nbits b))).sum / 17 := by
    rw [hmean_eq, hdv, hmv, leVal_replicate_zero]
    omega
  have hmean_len : (mean_target ctx).length = 32 := by rw [hmean_eq, hdl, hml]
  have hmean_bytes : IsBytes (mean_target ctx) := by rw [hmean_eq]; exact hdb
  -- division by 1275
  obtain ⟨hev, hel, heb⟩ := div_target_u32_spec (mean_target ctx) 1275 (by norm_num) hmean_bytes
  have h1275 : AVERAGING_WINDOW_TIMESPAN.toNat = 1275 := by decide
  -- the clamped timespan
  obtain ⟨hclo, hchi⟩ := clamp_timespan_range (actual_timespan_damped ctx)
  have hcnat : (clamp_timespan (actual_timespan_damped ctx)).toNat ≤ 1683 := by omega
  -- bound the product
  have hX : leVal (div_target_u32 (mean_target ctx) 1275) ≤ (2 ^ 243 - 1) / 1275 := by
    rw [hev, hmean_val]
    apply Nat.div_le_div_right
    have h17 : (ctx.bits.map (fun b => leVal (target_from_nbits b))).sum / 17 ≤
        17 * (2 ^ 243 - 1) / 17 := Nat.div_le_div_right hsumle
    rwa [Nat.mul_div_cancel_left _ (by norm_num : (0:Nat) < 17)] at h17
  have hprod : leVal (div_target_u32 (mean_target ctx) 1275) *
      (clamp_timespan (actual_timespan_damped ctx)).toNat < 2 ^ 256 := by
    calc leVal (div_target_u32 (mean_target ctx) 1275) *
        (clamp_timespan (actual_timespan_damped ctx)).toNat
        ≤ (2 ^ 243 - 1) / 1275 * 1683 := Nat.mul_le_mul hX hcnat
      _ < 2 ^ 256 := by norm_num
  have hmul := leVal_mul_target_u32 (div_target_u32 (mean_target ctx) 1275)
    (clamp_timespan (actual_timespan_damped ctx)).toNat
    (by rw [hel, hmean_len]) (by rw [hpow]; exact hprod)
  have hscaled_len : (mul_target_u32 (div_target_u32 (mean_target ctx) 1275)
      (clamp_timespan (actual_timespan_damped ctx)).toNat).length = 32 := by
    unfold mul_target_u32
    rw [mulBytes_length, hel, hmean_len]
  have hscaled_bytes : IsBytes (mul_target_u32 (div_target_u32 (mean_target ctx) 1275)
      (clamp_timespan (actual_timespan_damped ctx)).toNat) := mulBytes_bytes _ _ _
  have hthr : threshold ctx = min_target
      (mul_target_u32 (div_target_u32 (mean_target ctx) 1275)
        (clamp_timespan (actual_timespan_damped ctx)).toNat) POW_LIMIT_LE := by
    simp only [threshold, h1275]
  refine ⟨hsumlt, ?_, ?_⟩
  · rw [← hmean_val, ← hev]
    exact hprod
  · rw [hthr, leVal_min_target _ _ (by rw [hscaled_len, POW_LIMIT_LE_length])
      hscaled_bytes POW_LIMIT_LE_bytes, hmul, hev, hmean_val, leVal_POW_LIMIT_LE]

/-- Closed-form instance of the threshold computation on a concrete
17-entry context (all nBits `0x1f07ffff`, decoding to `POW_LIMIT`). -/
theorem threshold_exact_witness :
    leVal (threshold ⟨16, [], List.replicate 17 0x1f07ffff⟩) =
      min (((List.replicate 17 0x1f07ffff).map
          (fun b => leVal (target_from_nbits b))).sum / 17 / 1275 *
        (clamp_timespan (actual_timespan_damped ⟨16, [], List.replicate 17 0x1f07ffff⟩)).toNat)
        (2 ^ 243 - 1) := by
  have h := threshold_exact ⟨16, [], List.replicate 17 0x1f07ffff⟩ (by decide) ?bd
  case bd =>
    intro b hb
    have := List.eq_of_mem_replicate hb
    subst this
    decide
  exact h.2.2

/-- Equihash failure kinds (`equihash.rs`, `Kind`). -/
inductive Kind
  | InvalidParams
  | Collision
  | OutOfOrder
  | DuplicateIdxs
  | NonZeroRootHash
deriving DecidableEq

deriving instance DecidableEq for Except

/-- Equihash parameters (`equihash.rs`, `Params`). -/
structure Params where
  n : Nat
  k : Nat
deriving DecidableEq

/-- Validated parameter construction (`Params::new`). -/
def Params.new (n k : Nat) : Option Params :=
  if n % 8 = 0 ∧ 3 ≤ k ∧ k < n ∧ n % (k + 1) = 0 then some ⟨n, k⟩ else none

/-- Number of indices per BLAKE2b digest (`indices_per_hash_output`). -/
def Params.indices_per_hash_output (p : Params) : Nat := 512 / p.n

/-- Collision length in bits (`collision_bit_length`). -/
def Params.collision_bit_length (p : Params) : Nat := p.n / (p.k + 1)

/-- Collision length in whole bytes (`collision_byte_length`). -/
def Params.collision_byte_length (p : Params) : Nat := (p.collision_bit_length + 7) / 8

/-- Digit emission loop of `expand_array`: each time the accumulator holds
at least `bit_len` bits, emit `byte_pad` zero bytes followed by the
big-endian digit bytes.  The `u32` accumulator wraps modulo `2^32`; only
its low bits are read because `acc_bits + 7 + bit_len ≤ 32` holds on entry. -/
def expandLoop (bit_len out_width byte_pad : Nat) : List Nat → Nat → Nat → List Nat
  | [], _, _ => []
  | b :: bs, acc_bits, acc_value =>
    let acc_value := (acc_value * 256 + b) % 2 ^ 32
    let acc_bits := acc_bits + 8
    if bit_len ≤ acc_bits then
      (List.replicate byte_pad 0 ++
        (List.range (out_width - byte_pad)).map (fun idx =>
          let sh := out_width - byte_pad - 1 - idx
          acc_value >>> (acc_bits - bit_len + 8 * sh) &&&
            ((2 ^ bit_len - 1) >>> (8 * sh) &&& 255))) ++
        expandLoop bit_len out_width byte_pad bs (acc_bits - bit_len) acc_value
    else expandLoop bit_len out_width byte_pad bs acc_bits acc_value

/-- Bit expansion (`expand_array`): `none` models the Rust `assert!`
panics at the head of the function; the preallocated output buffer of
`out_len` zero bytes written block-by-block is the emitted blocks padded
with zeros and truncated to `out_len`. -/
def expand_array (vin : List Nat) (bit_len byte_pad : Nat) : Option (List Nat) :=
  if ¬ (8 ≤ bit_len ∧ 7 + bit_len ≤ 32) then none
  else
    let out_width := (bit_len + 7) / 8 + byte_pad
    let out_len := 8 * out_width * vin.length / bit_len
    if out_len = vin.length then some vin
    else
      some ((expandLoop bit_len out_width byte_pad vin 0 0 ++
        List.replicate out_len 0).take out_len)

/-- Split into 4-byte chunks (`chunks_exact(4)`), remainder dropped. -/
def chunks4 : List Nat → List (List Nat)
  | a :: b :: c :: d :: rest => [a, b, c, d] :: chunks4 rest
  | _ => []

/-- Big-endian `u32` from four bytes (`u32::from_be_bytes`). -/
def beU32 (chunk : List Nat) : Nat :=
  match chunk with
  | [a, b, c, d] => a * 2 ^ 24 + b * 2 ^ 16 + c * 2 ^ 8 + d
  | _ => 0

/-- Decode the minimal solution to indices (`indices_from_minimal`);
the outer `none` models a panic inside `expand_array`, the inner `Option`
is the source's return value. -/
def indices_from_minimal (p : Params) (minimal : List Nat) :
    Option (Option (List Nat)) :=
  let c_bit_len := p.collision_bit_length
  if minimal.length ≠ 2 ^ p.k * (c_bit_len + 1) / 8 then some none
  else
    let digit_bytes := (c_bit_len + 1 + 7) / 8
    let byte_pad := 4 - digit_bytes
    match expand_array minimal (c_bit_len + 1) byte_pad with
    | none => none
    | some expanded =>
      if ¬ expanded.length % 4 = 0 then some none
      else some (some ((chunks4 expanded).map beU32))

/-- Merge-tree node (`Node`). -/
structure Node where
  hash : List Nat
  indices : List Nat
deriving DecidableEq

/-- Leaf construction (`Node::new`): slice the group digest of the
abstracted seeded BLAKE2b state `gen` and expand it into one byte per
collision digit. -/
def Node.new (gen : Nat → List Nat) (p : Params) (i : Nat) : Option Node :=
  let hash := gen (i / p.indices_per_hash_output)
  let start := i % p.indices_per_hash_output * p.n / 8
  (expand_array ((hash.drop start).take (p.n / 8)) p.collision_bit_length 0).map
    (fun h => ⟨h, [i]⟩)

/-- Binding-order comparison of subtrees by first index (`indices_before`). -/
def Node.indices_before (a b : Node) : Bool :=
  decide (a.indices.headD 0 < b.indices.headD 0)

/-- Combine siblings (`Node::from_children`): XOR the post-collision bytes
and concatenate the index lists, smaller first index first. -/
def Node.from_children (a b : Node) (trim : Nat) : Node :=
  let hash := ((a.hash.zip b.hash).drop trim).map (fun xy => xy.1 ^^^ xy.2)
  let indices := if a.indices_before b then a.indices ++ b.indices
    else b.indices ++ a.indices
  ⟨hash, indices⟩

/-- Zero check of the first `len` hash bytes (`is_zero`). -/
def Node.is_zero (nd : Node) (len : Nat) : Bool :=
  (nd.hash.take len).all (fun v => v == 0)

/-- Collision prefix equality over `len` bytes (`has_collision`). -/
def has_collision (a b : Node) (len : Nat) : Bool :=
  ((a.hash.zip b.hash).take len).all (fun xy => xy.1 == xy.2)

/-- Disjointness of the two index lists (`distinct_indices`). -/
def distinct_indices (a b : Node) : Bool :=
  a.indices.all (fun i => b.indices.all (fun j => ! (i == j)))

/-- Sibling validation (`validate_subtrees`): collision prefix, then
binding order, then distinctness. -/
def validate_subtrees (p : Params) (a b : Node) : Except Kind Unit :=
  if has_collision a b p.collision_byte_length = false then .error .Collision
  else if b.indices_before a = true then .error .OutOfOrder
  else if distinct_indices a b = false then .error .DuplicateIdxs
  else .ok ()

/-- Fueled merge-tree recursion (`tree_validator`): the source recurses on
list halves; any fuel of at least the list length suffices, and the
wrapper passes the length.  `none` models panics (fuel exhaustion is
unreachable under that bound, and the empty slice would panic on
`indices[0]`). -/
def tree_validatorF (gen : Nat → List Nat) (p : Params) :
    Nat → List Nat → Option (Except Kind Node)
  | _, [] => none
  | _, [i] => (Node.new gen p i).map .ok
  | 0, _ :: _ :: _ => none
  | fuel + 1, i :: j :: rest =>
    let l := i :: j :: rest
    let mid := l.length / 2
    match tree_validatorF gen p fuel (l.take mid) with
    | none => none
    | some (.error e) => some (.error e)
    | some (.ok a) =>
      match tree_validatorF gen p fuel (l.drop mid) with
      | none => none
      | some (.error e) => some (.error e)
      | some (.ok b) =>
        match validate_subtrees p a b with
        | .error e => some (.error e)
        | .ok _ => some (.ok (Node.from_children a b p.collision_byte_length))

/-- Merge-tree validation entry point (`tree_validator`). -/
def tree_validator (gen : Nat → List Nat) (p : Params) (indices : List Nat) :
    Option (Except Kind Node) :=
  tree_validatorF gen p indices.length indices

/-- Full Equihash verification for arbitrary parameters
(`verify_equihash_solution_with_params`); `gen` abstracts the BLAKE2b
state seeded with the personalization and the powheader. -/
def verify_equihash_solution_with_params (n k : Nat) (gen : Nat → List Nat)
    (solution : List Nat) : Option (Except Kind Unit) :=
  match Params.new n k with
  | none => some (.error .InvalidParams)
  | some p =>
    match indices_from_minimal p solution with
    | none => none
    | some none => some (.error .InvalidParams)
    | some (some indices) =>
      match tree_validator gen p indices with
      | none => none
      | some (.error e) => some (.error e)
      | some (.ok root) =>
        some (if root.is_zero p.collision_byte_length then .ok ()
          else .error .NonZeroRootHash)

/-- Equihash verification at the fixed Zcash parameters
(`verify_equihash_solution`). -/
def verify_equihash_solution (gen : Nat → List Nat) (solution : List Nat) :
    Option (Except Kind Unit) :=
  verify_equihash_solution_with_params 200 9 gen solution

theorem chunks4_length : ∀ l : List Nat, (chunks4 l).length = l.length / 4
  | [] => rfl
  | [_] => by simp [chunks4]
  | [_, _] => by simp [chunks4]
  | [_, _, _] => by simp [chunks4]
  | a :: b :: c :: d :: rest => by
    simp only [chunks4, List.length_cons, chunks4_length rest]
    omega

theorem chunks4_append : ∀ (xs ys : List Nat), xs.length % 4 = 0 →
    chunks4 (xs ++ ys) = chunks4 xs ++ chunks4 ys
  | [], ys, _ => rfl
  | [_], _, h => by simp at h
  | [_, _], _, h => by simp at h
  | [_, _, _], _, h => by simp at h
  | a :: b :: c :: d :: rest, ys, h => by
    simp only [List.cons_append, chunks4, List.append_eq]
    rw [chunks4_append rest ys (by simp [List.length_cons] at h ⊢; omega)]

theorem expand_array_some (vin : List Nat) (bl bp : Nat) (h8 : 8 ≤ bl)
    (h32 : 7 + bl ≤ 32) :
    ∃ res, expand_array vin bl bp = some res ∧
      res.length = 8 * ((bl + 7) / 8 + bp) * vin.length / bl := by
  unfold expand_array
  rw [if_neg (not_not_intro ⟨h8, h32⟩)]
  by_cases hsame : 8 * ((bl + 7) / 8 + bp) * vin.length / bl = vin.length
  · rw [if_pos hsame]
    exact ⟨vin, rfl, hsame.symm⟩
  · rw [if_neg hsame]
    refine ⟨_, rfl, ?_⟩
    rw [List.length_take, List.length_append, List.length_replicate]
    omega

/-- One byte of input advances the accumulator state like this
(`expand_array`'s loop state). -/
def expandStep (bl : Nat) (st : Nat × Nat) (b : Nat) : Nat × Nat :=
  let av := (st.2 * 256 + b) % 2 ^ 32
  let ab := st.1 + 8
  (if bl ≤ ab then ab - bl else ab, av)

theorem expandLoop_append (bl ow bp : Nat) :
    ∀ (xs ys : List Nat) (ab av : Nat),
    expandLoop bl ow bp (xs ++ ys) ab av =
      expandLoop bl ow bp xs ab av ++
        expandLoop bl ow bp ys (xs.foldl (expandStep bl) (ab, av)).1
          (xs.foldl (expandStep bl) (ab, av)).2
  | [], ys, ab, av => by simp [expandLoop]
  | x :: xs, ys, ab, av => by
    simp only [List.cons_append, expandLoop, List.foldl_cons, List.append_eq]
    have hstep : expandStep bl (ab, av) x =
        (if bl ≤ ab + 8 then ab + 8 - bl else ab + 8, (av * 256 + x) % 2 ^ 32) := by
      simp only [expandStep]
    rw [hstep]
    by_cases hc : bl ≤ ab + 8
    · rw [if_pos hc, if_pos hc, if_pos hc]
      rw [expandLoop_append bl ow bp xs ys (ab + 8 - bl) ((av * 256 + x) % 2 ^ 32)]
      simp only [List.append_assoc]
    · rw [if_neg hc, if_neg hc, if_neg hc]
      rw [expandLoop_append bl ow bp xs ys (ab + 8) ((av * 256 + x) % 2 ^ 32)]

theorem expandLoop_length (bl ow bp : Nat) (h8 : 8 ≤ bl) (hbp : bp ≤ ow) :
    ∀ (vin : List Nat) (ab av : Nat), ab < bl →
    (expandLoop bl ow bp vin ab av).length = ow * ((ab + 8 * vin.length) / bl)
  | [], ab, av, hab => by
    simp only [expandLoop, List.length_nil, Nat.mul_zero, Nat.add_zero]
    rw [Nat.div_eq_of_lt hab, Nat.mul_zero]
  | b :: bs, ab, av, hab => by
    have hbl0 : 0 < bl := by omega
    simp only [expandLoop, List.length_cons]
    by_cases hc : bl ≤ ab + 8
    · rw [if_pos hc]
      rw [List.length_append, List.length_append, List.length_replicate,
        List.length_map, List.length_range]
      rw [expandLoop_length bl ow bp h8 hbp bs (ab + 8 - bl) _ (by omega)]
      have harith : ab + 8 * (bs.length + 1) = (ab + 8 - bl + 8 * bs.length) + bl := by
        omega
      rw [harith, Nat.add_div_right _ hbl0]
      have : bp + (ow - bp) = ow := by omega
      rw [Nat.mul_add]
      omega
    · rw [if_neg hc]
      rw [expandLoop_length bl ow bp h8 hbp bs (ab + 8) _ (by omega)]
      have harith : ab + 8 * (bs.length + 1) = ab + 8 + 8 * bs.length := by omega
      rw [harith]

theorem expandLoop21_bound : ∀ (vin : List Nat) (ab av : Nat),
    ∀ c ∈ chunks4 (expandLoop 21 4 1 vin ab av), beU32 c < 2 ^ 21
  | [], ab, av => by intro c hc; simp [expandLoop, chunks4] at hc
  | b :: bs, ab, av => by
    intro c hc
    simp only [expandLoop] at hc
    by_cases hcond : 21 ≤ ab + 8
    · rw [if_pos hcond] at hc
      rw [show List.range (4 - 1) = [0, 1, 2] from rfl] at hc
      simp only [List.map_cons, List.map_nil, List.replicate, List.cons_append,
        List.nil_append, chunks4, List.mem_cons] at hc
      rcases hc with rfl | hc
      · have hm0 : ((av * 256 + b) % 2 ^ 32) >>> (ab + 8 - 21 + 8 * (4 - 1 - 1 - 0)) &&&
            ((2 ^ 21 - 1) >>> (8 * (4 - 1 - 1 - 0)) &&& 255) ≤ 31 := by
          have h := Nat.and_le_right
            (n := ((av * 256 + b) % 2 ^ 32) >>> (ab + 8 - 21 + 8 * (4 - 1 - 1 - 0)))
            (m := (2 ^ 21 - 1) >>> (8 * (4 - 1 - 1 - 0)) &&& 255)
          have h31 : (2 ^ 21 - 1) >>> (8 * (4 - 1 - 1 - 0)) &&& 255 = 31 := by decide
          omega
        have hm1 : ((av * 256 + b) % 2 ^ 32) >>> (ab + 8 - 21 + 8 * (4 - 1 - 1 - 1)) &&&
            ((2 ^ 21 - 1) >>> (8 * (4 - 1 - 1 - 1)) &&& 255) ≤ 255 := by
          have h := Nat.and_le_right
            (n := ((av * 256 + b) % 2 ^ 32) >>> (ab + 8 - 21 + 8 * (4 - 1 - 1 - 1)))
            (m := (2 ^ 21 - 1) >>> (8 * (4 - 1 - 1 - 1)) &&& 255)
          have h255 : (2 ^ 21 - 1) >>> (8 * (4 - 1 - 1 - 1)) &&& 255 ≤ 255 :=
            Nat.and_le_right
          omega
        have hm2 : ((av * 256 + b) % 2 ^ 32) >>> (ab + 8 - 21 + 8 * (4 - 1 - 1 - 2)) &&&
            ((2 ^ 21 - 1) >>> (8 * (4 - 1 - 1 - 2)) &&& 255) ≤ 255 := by
          have h := Nat.and_le_right
            (n := ((av * 256 + b) % 2 ^ 32) >>> (ab + 8 - 21 + 8 * (4 - 1 - 1 - 2)))
            (m := (2 ^ 21 - 1) >>> (8 * (4 - 1 - 1 - 2)) &&& 255)
          have h255 : (2 ^ 21 - 1) >>> (8 * (4 - 1 - 1 - 2)) &&& 255 ≤ 255 :=
            Nat.and_le_right
          omega
        simp only [beU32]
        omega
      · exact expandLoop21_bound bs _ _ c hc
    · rw [if_neg hcond] at hc
      exact expandLoop21_bound bs _ _ c hc

theorem validate_subtrees_ok_distinct (p : Params) (a b : Node)
    (h : validate_subtrees p a b = .ok ()) : distinct_indices a b = true := by
  unfold validate_subtrees at h
  split_ifs at h with h1 h2 h3
  · cases hd : distinct_indices a b
    · exact absurd hd h3
    · rfl

theorem distinct_indices_disjoint (a b : Node) (h : distinct_indices a b = true) :
    a.indices.Disjoint b.indices := by
  intro x hxa hxb
  unfold distinct_indices at h
  rw [List.all_eq_true] at h
  have h2 := h x hxa
  rw [List.all_eq_true] at h2
  have h3 := h2 x hxb
  simp at h3

theorem Node_new_indices (gen : Nat → List Nat) (p : Params) (i : Nat) (nd : Node)
    (h : Node.new gen p i = some nd) : nd.indices = [i] := by
  unfold Node.new at h
  rcases Option.map_eq_some'.mp h with ⟨hl, _, heq⟩
  rw [← heq]

theorem tree_validatorF_leaf (gen : Nat → List Nat) (p : Params) (fuel i : Nat)
    (node : Node) (h : tree_validatorF gen p fuel [i] = some (.ok node)) :
    node.indices = [i] := by
  cases fuel with
  | zero =>
    simp only [tree_validatorF] at h
    rcases Option.map_eq_some'.mp h with ⟨nd, hnew, heq⟩
    have hnd : nd = node := by
      injection heq with h2
    rw [← hnd]
    exact Node_new_indices gen p i nd hnew
  | succ fuel =>
    simp only [tree_validatorF] at h
    rcases Option.map_eq_some'.mp h with ⟨nd, hnew, heq⟩
    have hnd : nd = node := by
      injection heq with h2
    rw [← hnd]
    exact Node_new_indices gen p i nd hnew

theorem tree_validatorF_ok_perm (gen : Nat → List Nat) (p : Params) :
    ∀ (fuel : Nat) (l : List Nat) (node : Node),
    tree_validatorF gen p fuel l = some (.ok node) →
    node.indices.Perm l ∧ node.indices.Nodup := by
  intro fuel
  induction fuel with
  | zero =>
    intro l node h
    match l with
    | [] => simp [tree_validatorF] at h
    | [i] =>
      rw [tree_validatorF_leaf gen p 0 i node h]
      exact ⟨List.Perm.refl _, by simp⟩
    | _ :: _ :: _ => simp [tree_validatorF] at h
  | succ fuel ih =>
    intro l node h
    match l with
    | [] => simp [tree_validatorF] at h
    | [i] =>
      rw [tree_validatorF_leaf gen p (fuel + 1) i node h]
      exact ⟨List.Perm.refl _, by simp⟩
    | i :: j :: rest =>
      simp only [tree_validatorF] at h
      rcases h1 : tree_validatorF gen p fuel
          ((i :: j :: rest).take ((i :: j :: rest).length / 2)) with _ | r1
      · rw [h1] at h; simp at h
      · rw [h1] at h
        rcases r1 with e | a
        · simp at h
        · dsimp only at h
          rcases h2 : tree_validatorF gen p fuel
              ((i :: j :: rest).drop ((i :: j :: rest).length / 2)) with _ | r2
          · rw [h2] at h; simp at h
          · rw [h2] at h
            rcases r2 with e | b
            · simp at h
            · dsimp only at h
              rcases hv : validate_subtrees p a b with e | u
              · rw [hv] at h; simp at h
              · rw [hv] at h
                dsimp only at h
                have hnode : node = Node.from_children a b p.collision_byte_length := by
                  injection h with h3
                  injection h3 with h4
                  exact h4.symm
                obtain ⟨hap, han⟩ := ih _ a h1
                obtain ⟨hbp, hbn⟩ := ih _ b h2
                have hdisj : a.indices.Disjoint b.indices := by
                  cases u
                  exact distinct_indices_disjoint a b (validate_subtrees_ok_distinct p a b hv)
                have hsplit : (i :: j :: rest).take ((i :: j :: rest).length / 2) ++
                    (i :: j :: rest).drop ((i :: j :: rest).length / 2) = i :: j :: rest :=
                  List.take_append_drop _ _
                have hperm_ab : (a.indices ++ b.indices).Perm (i :: j :: rest) := by
                  have h12 := List.Perm.append hap hbp
                  rwa [hsplit] at h12
                have hnodup_ab : (a.indices ++ b.indices).Nodup :=
                  List.Nodup.append han hbn hdisj
                rw [hnode]
                unfold Node.from_children
                by_cases hord : a.indices_before b
                · rw [if_pos hord]
                  exact ⟨hperm_ab, hnodup_ab⟩
                · rw [if_neg hord]
                  have hcomm : (b.indices ++ a.indices).Perm (a.indices ++ b.indices) :=
                    List.perm_append_comm
                  exact ⟨hcomm.trans hperm_ab, hcomm.nodup_iff.mpr hnodup_ab⟩

theorem Node_new_isSome (gen : Nat → List Nat) (p : Params) (i : Nat)
    (h8 : 8 ≤ p.collision_bit_length) (h25 : p.collision_bit_length ≤ 25) :
    (Node.new gen p i).isSome = true := by
  simp only [Node.new]
  obtain ⟨res, hres, _⟩ := expand_array_some
    (((gen (i / p.indices_per_hash_output)).drop
      (i % p.indices_per_hash_output * p.n / 8)).take (p.n / 8))
    p.collision_bit_length 0 h8 (by omega)
  rw [hres]
  rfl

theorem tree_validatorF_isSome (gen : Nat → List Nat) (p : Params)
    (h8 : 8 ≤ p.collision_bit_length) (h25 : p.collision_bit_length ≤ 25) :
    ∀ (fuel : Nat) (l : List Nat), l ≠ [] → l.length ≤ fuel + 1 →
    (tree_validatorF gen p fuel l).isSome = true := by
  intro fuel
  induction fuel with
  | zero =>
    intro l hne hlen
    match l, hne, hlen with
    | [i], _, _ =>
      simp only [tree_validatorF]
      have := Node_new_isSome gen p i h8 h25
      rcases hn : Node.new gen p i with _ | nd
      · rw [hn] at this; simp at this
      · rfl
    | _ :: _ :: _, _, hlen => simp at hlen
  | succ fuel ih =>
    intro l hne hlen
    match l, hne, hlen with
    | [i], _, _ =>
      simp only [tree_validatorF]
      have := Node_new_isSome gen p i h8 h25
      rcases hn : Node.new gen p i with _ | nd
      · rw [hn] at this; simp at this
      · rfl
    | i :: j :: rest, _, hlen =>
      simp only [tree_validatorF]
      have hlen2 : (i :: j :: rest).length = rest.length + 2 := by simp
      have hmid : (i :: j :: rest).length / 2 = (rest.length + 2) / 2 := by rw [hlen2]
      have htake_ne : (i :: j :: rest).take ((i :: j :: rest).length / 2) ≠ [] := by
        have : 1 ≤ (i :: j :: rest).length / 2 := by
          rw [hlen2]; omega
        intro hc
        have := congrArg List.length hc
        rw [List.length_take] at this
        simp at this
        omega
      have htake_len : ((i :: j :: rest).take ((i :: j :: rest).length / 2)).length ≤
          fuel + 1 := by
        rw [List.length_take]
        simp only [hlen2] at hlen ⊢
        omega
      have hdrop_ne : (i :: j :: rest).drop ((i :: j :: rest).length / 2) ≠ [] := by
        intro hc
        have := congrArg List.length hc
        rw [List.length_drop] at this
        simp only [hlen2] at this
        simp at this
        omega
      have hdrop_len : ((i :: j :: rest).drop ((i :: j :: rest).length / 2)).length ≤
          fuel + 1 := by
        rw [List.length_drop]
        simp only [hlen2] at hlen ⊢
        omega
      have ht := ih _ htake_ne htake_len
      rcases h1 : tree_validatorF gen p fuel
          ((i :: j :: rest).take ((i :: j :: rest).length / 2)) with _ | r1
      · rw [h1] at ht; simp at ht
      · rcases r1 with e | a
        · rfl
        · dsimp only
          have hd := ih _ hdrop_ne hdrop_len
          rcases h2 : tree_validatorF gen p fuel
              ((i :: j :: rest).drop ((i :: j :: rest).length / 2)) with _ | r2
          · rw [h2] at hd; simp at hd
          · rcases r2 with e | b
            · rfl
            · dsimp only
              rcases hv : validate_subtrees p a b with e | u <;> rfl

theorem expand_array_21_1344 (sol : List Nat) (hlen : sol.length = 1344) :
    expand_array sol 21 1 = some (expandLoop 21 4 1 sol 0 0) ∧
    (expandLoop 21 4 1 sol 0 0).length = 2048 := by
  have hloop : (expandLoop 21 4 1 sol 0 0).length = 2048 := by
    rw [expandLoop_length 21 4 1 (by norm_num) (by norm_num) sol 0 0 (by norm_num), hlen]
  refine ⟨?_, hloop⟩
  simp only [expand_array, hlen]
  norm_num
  rw [List.take_left' hloop]

theorem indices_from_minimal_200_eq (sol : List Nat) (hlen : sol.length = 1344) :
    indices_from_minimal ⟨200, 9⟩ sol =
      some (some ((chunks4 (expandLoop 21 4 1 sol 0 0)).map beU32)) := by
  obtain ⟨hexp, hlp⟩ := expand_array_21_1344 sol hlen
  simp only [indices_from_minimal, Params.collision_bit_length, hlen]
  norm_num
  rw [hexp]
  dsimp only
  rw [hlp]
  norm_num

theorem indices_from_minimal_200_ne (sol : List Nat) (hlen : sol.length ≠ 1344) :
    indices_from_minimal ⟨200, 9⟩ sol = some none := by
  simp only [indices_from_minimal, Params.collision_bit_length]
  norm_num
  intro hc
  exact absurd hc hlen

theorem verify_with_params_ok_tree (n k : Nat) (gen : Nat → List Nat) (sol : List Nat)
    (h : verify_equihash_solution_with_params n k gen sol = some (.ok ())) :
    ∃ p idxs root, Params.new n k = some p ∧
      indices_from_minimal p sol = some (some idxs) ∧
      tree_validator gen p idxs = some (.ok root) := by
  unfold verify_equihash_solution_with_params at h
  rcases hp : Params.new n k with _ | p
  · rw [hp] at h; simp at h
  · rw [hp] at h
    dsimp only at h
    rcases hd : indices_from_minimal p sol with _ | od
    · rw [hd] at h; simp at h
    · rw [hd] at h
      rcases od with _ | idxs
      · simp at h
      · dsimp only at h
        rcases ht : tree_validator gen p idxs with _ | r
        · rw [ht] at h; simp at h
        · rw [ht] at h
          rcases r with e | root
          · simp at h
          · exact ⟨p, idxs, root, rfl, hd, ht⟩

/-- C1: at every internal node of the Equihash merge tree the sibling
checks run in this order — collision on the first `c_byte_len = 3` bytes
(`Collision`), then binding order of first indices (`OutOfOrder`), then
index distinctness (`DuplicateIdxs`) — and the recursion splits the index
list at its midpoint, left half first, validating each pair with exactly
these checks before combining. -/
theorem tree_validator_sibling_checks :
    (∀ a b : Node, validate_subtrees ⟨200, 9⟩ a b =
      (if has_collision a b 3 = false then .error Kind.Collision
       else if b.indices.headD 0 < a.indices.headD 0 then .error Kind.OutOfOrder
       else if distinct_indices a b = false then .error Kind.DuplicateIdxs
       else .ok ())) ∧
    (∀ (gen : Nat → List Nat) (fuel : Nat) (l : List Nat), 1 < l.length →
      tree_validatorF gen ⟨200, 9⟩ (fuel + 1) l =
        match tree_validatorF gen ⟨200, 9⟩ fuel (l.take (l.length / 2)) with
        | none => none
        | some (.error e) => some (.error e)
        | some (.ok a) =>
          match tree_validatorF gen ⟨200, 9⟩ fuel (l.drop (l.length / 2)) with
          | none => none
          | some (.error e) => some (.error e)
          | some (.ok b) =>
            match validate_subtrees ⟨200, 9⟩ a b with
            | .error e => some (.error e)
            | .ok _ => some (.ok (Node.from_children a b 3))) := by
  constructor
  · intro a b
    unfold validate_subtrees
    rw [show (⟨200, 9⟩ : Params).collision_byte_length = 3 from rfl]
    by_cases hc : has_collision a b 3 = false
    · rw [if_pos hc, if_pos hc]
    · rw [if_neg hc, if_neg hc]
      by_cases ho : b.indices.headD 0 < a.indices.headD 0
      · rw [if_pos (show Node.indices_before b a = true by
          simp only [Node.indices_before, decide_eq_true_eq]; exact ho), if_pos ho]
      · rw [if_neg (show ¬ Node.indices_before b a = true by
          simp only [Node.indices_before, decide_eq_true_eq]; exact ho), if_neg ho]
  · intro gen fuel l hl
    rcases l with _ | ⟨i, _ | ⟨j, rest⟩⟩
    · simp at hl
    · simp at hl
    · rfl

/-- Closed-form instance of the merge-tree step at a two-leaf tree. -/
theorem tree_validator_sibling_checks_witness :
    tree_validatorF (fun _ => ([] : List Nat)) ⟨200, 9⟩ 1 [0, 1] =
      match tree_validatorF (fun _ => ([] : List Nat)) ⟨200, 9⟩ 0
          ([0, 1].take ([0, 1].length / 2)) with
      | none => none
      | some (.error e) => some (.error e)
      | some (.ok a) =>
        match tree_validatorF (fun _ => ([] : List Nat)) ⟨200, 9⟩ 0
            ([0, 1].drop ([0, 1].length / 2)) with
        | none => none
        | some (.error e) => some (.error e)
        | some (.ok b) =>
          match validate_subtrees ⟨200, 9⟩ a b with
          | .error e => some (.error e)
          | .ok _ => some (.ok (Node.from_children a b 3)) :=
  tree_validator_sibling_checks.2 (fun _ => []) 0 [0, 1] (by decide)

/-- C9: with parameters `(200, 9)`, `indices_from_minimal` succeeds exactly
on byte strings of length 1344; the decoded list then has exactly 512
entries, each strictly below `2^21`; and whenever the full Equihash
verification succeeds on a solution, its decoded indices are pairwise
distinct. -/
theorem indices_from_minimal_spec (sol : List Nat) :
    ((∃ l, indices_from_minimal ⟨200, 9⟩ sol = some (some l)) ↔ sol.length = 1344) ∧
    (∀ l, indices_from_minimal ⟨200, 9⟩ sol = some (some l) →
      l.length = 512 ∧ ∀ x ∈ l, x < 2 ^ 21) ∧
    (∀ (gen : Nat → List Nat) (l : List Nat),
      indices_from_minimal ⟨200, 9⟩ sol = some (some l) →
      verify_equihash_solution gen sol = some (.ok ()) → l.Nodup) := by
  refine ⟨⟨?_, ?_⟩, ?_, ?_⟩
  · rintro ⟨l, hl⟩
    by_contra hne
    rw [indices_from_minimal_200_ne sol hne] at hl
    simp at hl
  · intro hlen
    exact ⟨_, indices_from_minimal_200_eq sol hlen⟩
  · intro l hl
    have hlen : sol.length = 1344 := by
      by_contra hne
      rw [indices_from_minimal_200_ne sol hne] at hl
      simp at hl
    rw [indices_from_minimal_200_eq sol hlen] at hl
    simp only [Option.some_inj] at hl
    subst hl
    constructor
    · rw [List.length_map, chunks4_length, (expand_array_21_1344 sol hlen).2]
    · intro x hx
      obtain ⟨c, hc, rfl⟩ := List.mem_map.mp hx
      exact expandLoop21_bound sol 0 0 c hc
  · intro gen l hl hok
    obtain ⟨p, idxs, root, hp, hd, ht⟩ := verify_with_params_ok_tree 200 9 gen sol hok
    have hp2 : p = ⟨200, 9⟩ := by
      rw [show Params.new 200 9 = some ⟨200, 9⟩ from rfl] at hp
      injection hp with h2
      exact h2.symm
    subst hp2
    rw [hl] at hd
    simp only [Option.some_inj] at hd
    subst hd
    have hperm := tree_validatorF_ok_perm gen ⟨200, 9⟩ l.length l root ht
    exact hperm.1.nodup_iff.mp hperm.2

theorem verify_200_9_total (gen : Nat → List Nat) (sol : List Nat) :
    (verify_equihash_solution_with_params 200 9 gen sol).isSome = true := by
  unfold verify_equihash_solution_with_params
  rw [show Params.new 200 9 = some ⟨200, 9⟩ from rfl]
  dsimp only
  by_cases hlen : sol.length = 1344
  · rw [indices_from_minimal_200_eq sol hlen]
    dsimp only
    have hlen512 : ((chunks4 (expandLoop 21 4 1 sol 0 0)).map beU32).length = 512 := by
      rw [List.length_map, chunks4_length, (expand_array_21_1344 sol hlen).2]
    have hne : (chunks4 (expandLoop 21 4 1 sol 0 0)).map beU32 ≠ [] := by
      intro hc
      rw [hc] at hlen512
      simp at hlen512
    have hsome := tree_validatorF_isSome gen ⟨200, 9⟩ (by decide) (by decide)
      ((chunks4 (expandLoop 21 4 1 sol 0 0)).map beU32).length
      ((chunks4 (expandLoop 21 4 1 sol 0 0)).map beU32) hne (by omega)
    unfold tree_validator
    rcases htv : tree_validatorF gen ⟨200, 9⟩
        ((chunks4 (expandLoop 21 4 1 sol 0 0)).map beU32).length
        ((chunks4 (expandLoop 21 4 1 sol 0 0)).map beU32) with _ | r
    · rw [htv] at hsome; simp at hsome
    · rcases r with e | root <;> rfl
  · rw [indices_from_minimal_200_ne sol hlen]
    rfl

/-- C10: `Params::new` accepts `(n, k) = (24, 3)` although its collision
bit length plus one is below the 8-bit floor asserted by `expand_array`;
on the 7-byte minimal-length solution the verifier then panics (modelled
as `none`) instead of returning `Err(InvalidParams)`; under the fixed
`(200, 9)` entry point the assertions cannot fire and verification is
total. -/
theorem equihash_params_totality :
    Params.new 24 3 = some ⟨24, 3⟩ ∧
    (⟨24, 3⟩ : Params).collision_bit_length + 1 < 8 ∧
    verify_equihash_solution_with_params 24 3 (fun _ => []) (List.replicate 7 0) = none ∧
    ∀ (gen : Nat → List Nat) (sol : List Nat),
      (verify_equihash_solution_with_params 200 9 gen sol).isSome = true := by
  refine ⟨by decide, by decide, by decide, verify_200_9_total⟩

/-- Parsed block header (`zcash_primitives::block::BlockHeader` fields as
consumed by `lib.rs`); `hash` is the double-SHA256 of the serialized
header, computed by the external crate and carried as data here. -/
structure BlockHeader where
  version : Nat
  prev_block : List Nat
  merkle_root : List Nat
  final_sapling_root : List Nat
  time : Nat
  bits : Nat
  nonce : List Nat
  solution : List Nat
  hash : List Nat

/-- Combined verification error (`lib.rs`, `PowError`). -/
inductive PowError
  | Equihash (e : Kind)
  | Difficulty (e : DiffError)
  | ContextDifficulty (e : DiffError)
deriving DecidableEq

/-- Combined Equihash, difficulty-filter, and contextual-difficulty check
(`lib.rs`, `verify_pow_with_context`).  The `&mut ctx` of the source is
explicit state passing: the result carries the context back, and `gen`
abstracts the BLAKE2b state seeded with the reconstructed powheader.
`none` models a panic inside the Equihash verifier (impossible at the
fixed `(200, 9)` parameters). -/
def verify_pow_with_context (gen : Nat → List Nat) (header : BlockHeader)
    (height : Nat) (ctx : DifficultyContext) :
    Option (Except PowError Unit × DifficultyContext) :=
  match verify_equihash_solution gen header.solution with
  | none => none
  | some (.error e) => some (.error (.Equihash e), ctx)
  | some (.ok _) =>
    match verify_difficulty_filter header.hash header.bits with
    | .error e => some (.error (.Difficulty e), ctx)
    | .ok _ =>
      match verify_difficulty_contextual ctx height header.bits with
      | .error e => some (.error (.ContextDifficulty e), ctx)
      | .ok _ => some (.ok (), ctx.push_header height header.time header.bits)

/-- C5: `verify_pow_with_context` runs Equihash, then the difficulty
filter, then contextual difficulty, in that order (the first failing stage
determines the error); on any `Err` the returned context is exactly the
input context, and on `Ok` the only effect is the single
`push_header(height, time, bits)` call. -/
theorem verify_pow_with_context_spec (gen : Nat → List Nat) (header : BlockHeader)
    (height : Nat) (ctx : DifficultyContext) :
    ∃ eqr res ctx2,
      verify_equihash_solution gen header.solution = some eqr ∧
      verify_pow_with_context gen header height ctx = some (res, ctx2) ∧
      res = (match eqr with
        | .error e => .error (.Equihash e)
        | .ok _ =>
          match verify_difficulty_filter header.hash header.bits with
          | .error e => .error (.Difficulty e)
          | .ok _ =>
            match verify_difficulty_contextual ctx height header.bits with
            | .error e => .error (.ContextDifficulty e)
            | .ok _ => .ok ()) ∧
      ctx2 = (match res with
        | .ok _ => ctx.push_header height header.time header.bits
        | .error _ => ctx) := by
  have htot := verify_200_9_total gen header.solution
  rcases he : verify_equihash_solution gen header.solution with _ | eqr
  · rw [verify_equihash_solution] at he
    rw [he] at htot
    simp at htot
  · refine ⟨eqr, _, _, rfl, ?_, rfl, rfl⟩
    unfold verify_pow_with_context
    rw [he]
    rcases eqr with e | u
    · rfl
    · dsimp only
      rcases hf : verify_difficulty_filter header.hash header.bits with e | u2
      · rfl
      · dsimp only
        rcases hc : verify_difficulty_contextual ctx height header.bits with e | u3 <;> rfl


/-- Concrete 1344-byte minimal encoding of the indices `0, 1, ..., 511`
as consecutive 21-bit big-endian digits, first 336-byte quarter. -/
def sol0a : List Nat :=
  [0, 0, 0, 0, 0, 64, 0, 4, 0, 0, 48, 0, 2, 0, 0, 20, 0, 0, 192, 0, 7, 0,
   0, 64, 0, 2, 64, 0, 20, 0, 0, 176, 0, 6, 0, 0, 52, 0, 1, 192, 0, 15, 0,
   0, 128, 0, 4, 64, 0, 36, 0, 1, 48, 0, 10, 0, 0, 84, 0, 2, 192, 0, 23, 0,
   0, 192, 0, 6, 64, 0, 52, 0, 1, 176, 0, 14, 0, 0, 116, 0, 3, 192, 0, 31,
   0, 1, 0, 0, 8, 64, 0, 68, 0, 2, 48, 0, 18, 0, 0, 148, 0, 4, 192, 0, 39,
   0, 1, 64, 0, 10, 64, 0, 84, 0, 2, 176, 0, 22, 0, 0, 180, 0, 5, 192, 0,
   47, 0, 1, 128, 0, 12, 64, 0, 100, 0, 3, 48, 0, 26, 0, 0, 212, 0, 6, 192,
   0, 55, 0, 1, 192, 0, 14, 64, 0, 116, 0, 3, 176, 0, 30, 0, 0, 244, 0, 7,
   192, 0, 63, 0, 2, 0, 0, 16, 64, 0, 132, 0, 4, 48, 0, 34, 0, 1, 20, 0, 8,
   192, 0, 71, 0, 2, 64, 0, 18, 64, 0, 148, 0, 4, 176, 0, 38, 0, 1, 52, 0,
   9, 192, 0, 79, 0, 2, 128, 0, 20, 64, 0, 164, 0, 5, 48, 0, 42, 0, 1, 84,
   0, 10, 192, 0, 87, 0, 2, 192, 0, 22, 64, 0, 180, 0, 5, 176, 0, 46, 0, 1,
   116, 0, 11, 192, 0, 95, 0, 3, 0, 0, 24, 64, 0, 196, 0, 6, 48, 0, 50, 0,
   1, 148, 0, 12, 192, 0, 103, 0, 3, 64, 0, 26, 64, 0, 212, 0, 6, 176, 0,
   54, 0, 1, 180, 0, 13, 192, 0, 111, 0, 3, 128, 0, 28, 64, 0, 228, 0, 7,
   48, 0, 58, 0, 1, 212, 0, 14, 192, 0, 119, 0, 3, 192, 0, 30, 64, 0, 244,
   0, 7, 176, 0, 62, 0, 1, 244, 0, 15, 192, 0, 127]

/-- Second 336-byte quarter of `sol0`. -/
def sol0b : List Nat :=
  [0, 4, 0, 0, 32, 64, 1, 4, 0, 8, 48, 0, 66, 0, 2, 20, 0, 16, 192, 0, 135,
   0, 4, 64, 0, 34, 64, 1, 20, 0, 8, 176, 0, 70, 0, 2, 52, 0, 17, 192, 0,
   143, 0, 4, 128, 0, 36, 64, 1, 36, 0, 9, 48, 0, 74, 0, 2, 84, 0, 18, 192,
   0, 151, 0, 4, 192, 0, 38, 64, 1, 52, 0, 9, 176, 0, 78, 0, 2, 116, 0, 19,
   192, 0, 159, 0, 5, 0, 0, 40, 64, 1, 68, 0, 10, 48, 0, 82, 0, 2, 148, 0,
   20, 192, 0, 167, 0, 5, 64, 0, 42, 64, 1, 84, 0, 10, 176, 0, 86, 0, 2,
   180, 0, 21, 192, 0, 175, 0, 5, 128, 0, 44, 64, 1, 100, 0, 11, 48, 0, 90,
   0, 2, 212, 0, 22, 192, 0, 183, 0, 5, 192, 0, 46, 64, 1, 116, 0, 11, 176,
   0, 94, 0, 2, 244, 0, 23, 192, 0, 191, 0, 6, 0, 0, 48, 64, 1, 132, 0, 12,
   48, 0, 98, 0, 3, 20, 0, 24, 192, 0, 199, 0, 6, 64, 0, 50, 64, 1, 148, 0,
   12, 176, 0, 102, 0, 3, 52, 0, 25, 192, 0, 207, 0, 6, 128, 0, 52, 64, 1,
   164, 0, 13, 48, 0, 106, 0, 3, 84, 0, 26, 192, 0, 215, 0, 6, 192, 0, 54,
   64, 1, 180, 0, 13, 176, 0, 110, 0, 3, 116, 0, 27, 192, 0, 223, 0, 7, 0,
   0, 56, 64, 1, 196, 0, 14, 48, 0, 114, 0, 3, 148, 0, 28, 192, 0, 231, 0,
   7, 64, 0, 58, 64, 1, 212, 0, 14, 176, 0, 118, 0, 3, 180, 0, 29, 192, 0,
   239, 0, 7, 128, 0, 60, 64, 1, 228, 0, 15, 48, 0, 122, 0, 3, 212, 0, 30,
   192, 0, 247, 0, 7, 192, 0, 62, 64, 1, 244, 0, 15, 176, 0, 126, 0, 3,
   244, 0, 31, 192, 0, 255]

/-- Third 336-byte quarter of `sol0`. -/
def sol0c : List Nat :=
  [0, 8, 0, 0, 64, 64, 2, 4, 0, 16, 48, 0, 130, 0, 4, 20, 0, 32, 192, 1, 7,
   0, 8, 64, 0, 66, 64, 2, 20, 0, 16, 176, 0, 134, 0, 4, 52, 0, 33, 192, 1,
   15, 0, 8, 128, 0, 68, 64, 2, 36, 0, 17, 48, 0, 138, 0, 4, 84, 0, 34,
   192, 1, 23, 0, 8, 192, 0, 70, 64, 2, 52, 0, 17, 176, 0, 142, 0, 4, 116,
   0, 35, 192, 1, 31, 0, 9, 0, 0, 72, 64, 2, 68, 0, 18, 48, 0, 146, 0, 4,
   148, 0, 36, 192, 1, 39, 0, 9, 64, 0, 74, 64, 2, 84, 0, 18, 176, 0, 150,
   0, 4, 180, 0, 37, 192, 1, 47, 0, 9, 128, 0, 76, 64, 2, 100, 0, 19, 48,
   0, 154, 0, 4, 212, 0, 38, 192, 1, 55, 0, 9, 192, 0, 78, 64, 2, 116, 0,
   19, 176, 0, 158, 0, 4, 244, 0, 39, 192, 1, 63, 0, 10, 0, 0, 80, 64, 2,
   132, 0, 20, 48, 0, 162, 0, 5, 20, 0, 40, 192, 1, 71, 0, 10, 64, 0, 82,
   64, 2, 148, 0, 20, 176, 0, 166, 0, 5, 52, 0, 41, 192, 1, 79, 0, 10, 128,
   0, 84, 64, 2, 164, 0, 21, 48, 0, 170, 0, 5, 84, 0, 42, 192, 1, 87, 0,
   10, 192, 0, 86, 64, 2, 180, 0, 21, 176, 0, 174, 0, 5, 116, 0, 43, 192,
   1, 95, 0, 11, 0, 0, 88, 64, 2, 196, 0, 22, 48, 0, 178, 0, 5, 148, 0, 44,
   192, 1, 103, 0, 11, 64, 0, 90, 64, 2, 212, 0, 22, 176, 0, 182, 0, 5,
   180, 0, 45, 192, 1, 111, 0, 11, 128, 0, 92, 64, 2, 228, 0, 23, 48, 0,
   186, 0, 5, 212, 0, 46, 192, 1, 119, 0, 11, 192, 0, 94, 64, 2, 244, 0,
   23, 176, 0, 190, 0, 5, 244, 0, 47, 192, 1, 127]

/-- Fourth 336-byte quarter of `sol0`. -/
def sol0d : List Nat :=
  [0, 12, 0, 0, 96, 64, 3, 4, 0, 24, 48, 0, 194, 0, 6, 20, 0, 48, 192, 1,
   135, 0, 12, 64, 0, 98, 64, 3, 20, 0, 24, 176, 0, 198, 0, 6, 52, 0, 49,
   192, 1, 143, 0, 12, 128, 0, 100, 64, 3, 36, 0, 25, 48, 0, 202, 0, 6, 84,
   0, 50, 192, 1, 151, 0, 12, 192, 0, 102, 64, 3, 52, 0, 25, 176, 0, 206,
   0, 6, 116, 0, 51, 192, 1, 159, 0, 13, 0, 0, 104, 64, 3, 68, 0, 26, 48,
   0, 210, 0, 6, 148, 0, 52, 192, 1, 167, 0, 13, 64, 0, 106, 64, 3, 84, 0,
   26, 176, 0, 214, 0, 6, 180, 0, 53, 192, 1, 175, 0, 13, 128, 0, 108, 64,
   3, 100, 0, 27, 48, 0, 218, 0, 6, 212, 0, 54, 192, 1, 183, 0, 13, 192, 0,
   110, 64, 3, 116, 0, 27, 176, 0, 222, 0, 6, 244, 0, 55, 192, 1, 191, 0,
   14, 0, 0, 112, 64, 3, 132, 0, 28, 48, 0, 226, 0, 7, 20, 0, 56, 192, 1,
   199, 0, 14, 64, 0, 114, 64, 3, 148, 0, 28, 176, 0, 230, 0, 7, 52, 0, 57,
   192, 1, 207, 0, 14, 128, 0, 116, 64, 3, 164, 0, 29, 48, 0, 234, 0, 7,
   84, 0, 58, 192, 1, 215, 0, 14, 192, 0, 118, 64, 3, 180, 0, 29, 176, 0,
   238, 0, 7, 116, 0, 59, 192, 1, 223, 0, 15, 0, 0, 120, 64, 3, 196, 0, 30,
   48, 0, 242, 0, 7, 148, 0, 60, 192, 1, 231, 0, 15, 64, 0, 122, 64, 3,
   212, 0, 30, 176, 0, 246, 0, 7, 180, 0, 61, 192, 1, 239, 0, 15, 128, 0,
   124, 64, 3, 228, 0, 31, 48, 0, 250, 0, 7, 212, 0, 62, 192, 1, 247, 0,
   15, 192, 0, 126, 64, 3, 244, 0, 31, 176, 0, 254, 0, 7, 244, 0, 63, 192,
   1, 255]

/-- The full concrete minimal solution, pieced together so each quarter
of the bit-expansion loop can be evaluated on its own. -/
def sol0 : List Nat := sol0a ++ (sol0b ++ (sol0c ++ sol0d))

set_option maxRecDepth 10000 in
theorem sol0_length : sol0.length = 1344 := by
  simp only [sol0, List.length_append]
  decide

set_option maxRecDepth 1000000 in
set_option maxHeartbeats 4000000 in
theorem sol0_decode :
    (chunks4 (expandLoop 21 4 1 sol0 0 0)).map beU32 = List.range 512 := by
  show (chunks4 (expandLoop 21 4 1 (sol0a ++ (sol0b ++ (sol0c ++ sol0d))) 0 0)).map
    beU32 = List.range 512
  rw [expandLoop_append 21 4 1 sol0a (sol0b ++ (sol0c ++ sol0d)) 0 0]
  rw [show (sol0a.foldl (expandStep 21) (0, 0)).1 = 0 from by decide,
    show (sol0a.foldl (expandStep 21) (0, 0)).2 = 264241279 from by decide]
  rw [expandLoop_append 21 4 1 sol0b (sol0c ++ sol0d) 0 264241279]
  rw [show (sol0b.foldl (expandStep 21) (0, 264241279)).1 = 0 from by decide,
    show (sol0b.foldl (expandStep 21) (0, 264241279)).2 = 532676863 from by decide]
  rw [expandLoop_append 21 4 1 sol0c sol0d 0 532676863]
  rw [show (sol0c.foldl (expandStep 21) (0, 532676863)).1 = 0 from by decide,
    show (sol0c.foldl (expandStep 21) (0, 532676863)).2 = 801112447 from by decide]
  rw [chunks4_append _ _ (by decide : (expandLoop 21 4 1 sol0a 0 0).length % 4 = 0)]
  rw [chunks4_append _ _
    (by decide : (expandLoop 21 4 1 sol0b 0 264241279).length % 4 = 0)]
  rw [chunks4_append _ _
    (by decide : (expandLoop 21 4 1 sol0c 0 532676863).length % 4 = 0)]
  rw [List.map_append, List.map_append, List.map_append]
  rw [show (chunks4 (expandLoop 21 4 1 sol0a 0 0)).map beU32 = List.range' 0 128
      from by decide,
    show (chunks4 (expandLoop 21 4 1 sol0b 0 264241279)).map beU32 =
      List.range' 128 128 from by decide,
    show (chunks4 (expandLoop 21 4 1 sol0c 0 532676863)).map beU32 =
      List.range' 256 128 from by decide,
    show (chunks4 (expandLoop 21 4 1 sol0d 0 801112447)).map beU32 =
      List.range' 384 128 from by decide]
  decide

theorem sol0_indices :
    indices_from_minimal ⟨200, 9⟩ sol0 = some (some (List.range 512)) := by
  rw [indices_from_minimal_200_eq sol0 sol0_length, sol0_decode]

/-- Sibling validation succeeds on empty-hash nodes whose index lists
are nonempty and strictly separated. -/
theorem validate_subtrees_empty (p : Params) (la lb : List Nat)
    (ha : la ≠ []) (hb : lb ≠ [])
    (hcross : ∀ x ∈ la, ∀ y ∈ lb, x < y) :
    validate_subtrees p ⟨[], la⟩ ⟨[], lb⟩ = .ok () := by
  obtain ⟨x, xs, rfl⟩ := List.exists_cons_of_ne_nil ha
  obtain ⟨y, ys, rfl⟩ := List.exists_cons_of_ne_nil hb
  have hxy : x < y := hcross x (by simp) y (by simp)
  unfold validate_subtrees
  rw [if_neg, if_neg, if_neg]
  · intro hc
    rw [Bool.eq_false_iff] at hc
    apply hc
    simp only [distinct_indices, List.all_eq_true]
    intro u hu v hv
    have := hcross u hu v hv
    simp only [Bool.not_eq_eq_eq_not, Bool.not_true, beq_eq_false_iff_ne]
    omega
  · intro hc
    simp only [Node.indices_before, List.headD_cons, decide_eq_true_eq] at hc
    omega
  · intro hc
    rw [Bool.eq_false_iff] at hc
    apply hc
    simp only [has_collision]
    rw [show (List.zip ([] : List Nat) ([] : List Nat)) = [] from rfl]
    simp

/-- When every leaf yields an empty hash with its own singleton index
list, the merge-tree recursion accepts any strictly increasing index
list and returns the empty-hash node carrying exactly that list. -/
theorem tree_validatorF_chain (gen : Nat → List Nat) (p : Params)
    (hleaf : ∀ i, Node.new gen p i = some ⟨[], [i]⟩) :
    ∀ (fuel : Nat) (l : List Nat), l ≠ [] → l.length ≤ fuel + 1 →
    l.Pairwise (· < ·) →
    tree_validatorF gen p fuel l = some (.ok ⟨[], l⟩) := by
  intro fuel
  induction fuel with
  | zero =>
    intro l hne hlen hpw
    match l with
    | [i] =>
      simp only [tree_validatorF, hleaf i, Option.map_some']
    | [] => exact absurd rfl hne
    | _ :: _ :: _ => simp at hlen
  | succ fuel ih =>
    intro l hne hlen hpw
    match l with
    | [] => exact absurd rfl hne
    | [i] =>
      simp only [tree_validatorF, hleaf i, Option.map_some']
    | i :: j :: rest =>
      simp only [tree_validatorF]
      set l' := i :: j :: rest with hl'
      set mid := l'.length / 2 with hmid
      have hlen' : l'.length = rest.length + 2 := by simp [hl']
      have hmid1 : 1 ≤ mid := by omega
      have hmidlt : mid < l'.length := by omega
      have htlen : (l'.take mid).length = mid := by
        rw [List.length_take]; omega
      have hdlen : (l'.drop mid).length = l'.length - mid := by
        rw [List.length_drop]
      have htne : l'.take mid ≠ [] := by
        intro hc; rw [hc] at htlen; simp at htlen; omega
      have hdne : l'.drop mid ≠ [] := by
        intro hc; rw [hc] at hdlen; simp at hdlen; omega
      have hsplit : l'.take mid ++ l'.drop mid = l' := List.take_append_drop _ _
      have hcross : ∀ x ∈ l'.take mid, ∀ y ∈ l'.drop mid, x < y := by
        have hpw2 : (l'.take mid ++ l'.drop mid).Pairwise (· < ·) := by
          rw [hsplit]; exact hpw
        exact fun x hx y hy => (List.pairwise_append.mp hpw2).2.2 x hx y hy
      have ht := ih (l'.take mid) htne (by omega)
        (hpw.sublist (List.take_sublist _ _))
      have hd := ih (l'.drop mid) hdne (by omega)
        (hpw.sublist (List.drop_sublist _ _))
      rw [ht]
      dsimp only
      rw [hd]
      dsimp only
      rw [validate_subtrees_empty p _ _ htne hdne hcross]
      dsimp only
      have hord : Node.indices_before ⟨[], l'.take mid⟩ ⟨[], l'.drop mid⟩ = true := by
        obtain ⟨x, xs, hx⟩ := List.exists_cons_of_ne_nil htne
        obtain ⟨y, ys, hy⟩ := List.exists_cons_of_ne_nil hdne
        have hxy : x < y := hcross x (by rw [hx]; simp) y (by rw [hy]; simp)
        simp only [Node.indices_before, hx, hy, List.headD_cons, decide_eq_true_eq]
        omega
      simp only [Node.from_children, hord, if_pos]
      rw [show (List.zip ([] : List Nat) ([] : List Nat)) = [] from rfl]
      simp only [List.drop_nil, List.map_nil, hsplit]

/-- Under the all-empty hash oracle every leaf is the empty-hash node
with its singleton index. -/
theorem Node_new_empty_oracle (i : Nat) :
    Node.new (fun _ => []) ⟨200, 9⟩ i = some ⟨[], [i]⟩ := by
  simp only [Node.new, List.drop_nil, List.take_nil]
  rfl

theorem range512_tree :
    tree_validator (fun _ => []) ⟨200, 9⟩ (List.range 512) =
      some (.ok ⟨[], List.range 512⟩) := by
  unfold tree_validator
  exact tree_validatorF_chain (fun _ => []) ⟨200, 9⟩ Node_new_empty_oracle
    (List.range 512).length (List.range 512) (by simp)
    (by simp) (List.pairwise_lt_range 512)

/-- Forward composition: a successful decode, a successful tree
validation and a zero root make the parameterised verifier accept. -/
theorem verify_with_params_ok_intro (n k : Nat) (gen : Nat → List Nat)
    (sol : List Nat) (p : Params) (idxs : List Nat) (root : Node)
    (hp : Params.new n k = some p)
    (hd : indices_from_minimal p sol = some (some idxs))
    (ht : tree_validator gen p idxs = some (.ok root))
    (hz : root.is_zero p.collision_byte_length = true) :
    verify_equihash_solution_with_params n k gen sol = some (.ok ()) := by
  unfold verify_equihash_solution_with_params
  rw [hp]
  dsimp only
  rw [hd]
  dsimp only
  rw [ht]
  dsimp only
  rw [hz]
  simp

theorem sol0_verify :
    verify_equihash_solution (fun _ => []) sol0 = some (.ok ()) := by
  unfold verify_equihash_solution
  exact verify_with_params_ok_intro 200 9 (fun _ => []) sol0 ⟨200, 9⟩
    (List.range 512) ⟨[], List.range 512⟩ rfl sol0_indices range512_tree rfl

/-- Witness for C9: the concrete solution encoding the indices
`0, 1, ..., 511` has length 1344, decodes to 512 indices each below
`2^21`, and — since verification under the all-empty hash oracle accepts
it — those indices are pairwise distinct. -/
theorem indices_from_minimal_spec_witness :
    (∃ l, indices_from_minimal ⟨200, 9⟩ sol0 = some (some l)) ∧
    ((List.range 512).length = 512 ∧ ∀ x ∈ List.range 512, x < 2 ^ 21) ∧
    (List.range 512).Nodup := by
  obtain ⟨h1, h2, h3⟩ := indices_from_minimal_spec sol0
  exact ⟨h1.mpr sol0_length, h2 (List.range 512) sol0_indices,
    h3 (fun _ => []) (List.range 512) sol0_indices sol0_verify⟩

end ZcashPow
